import Mathlib

/-!
# Exported-header collection (`collect_exported_headers.cpp`)

A shallow embedding of `header_checker::utils` from
`vndk/tools/header-checker/src/utils/collect_exported_headers.cpp`:
`ShouldSkipFile`, `GetCwd`, `NormalizePath`, `CollectExportedHeaderSet` and
`CollectAllExportedHeaders`.

The file calls the LLVM support library (`llvm::sys::path`, `llvm::sys::fs`).
That library is not part of the repository; the functions the source calls are
modelled here after the library's POSIX-style algorithms, each under a doc
comment that says so.  The environment (current working directory, what a
directory stream yields, what `stat` answers) is an explicit input.

C++ strings are lists of characters; a character stands for one `char`.
-/

namespace header_checker
namespace utils

/-- A C++ string (`std::string`, `llvm::StringRef`, `llvm::SmallString`). -/
abbrev Str := List Char

/-! ## `llvm::sys::path`, POSIX style -/

/-- Library `path::is_separator`, POSIX style: only the slash separates. -/
def is_separator (value : Char) : Bool := value == '/'

/-- The part of `s` before its first separator (`find_first_of(separators)`
followed by `substr(0, end)`). -/
def upto_separator (s : Str) : Str := s.takeWhile (fun c => !is_separator c)

/-- The part of `s` from its first separator on. -/
def from_separator (s : Str) : Str := s.dropWhile (fun c => !is_separator c)

/-- The test `path.size() > 2 && is_separator(path[0]) && path[0] == path[1] &&
!is_separator(path[2])` of the library: the string starts with a `//net` name. -/
def starts_with_net (path : Str) : Bool :=
  match path with
  | c0 :: c1 :: c2 :: _ => is_separator c0 && c0 == c1 && !is_separator c2
  | _ => false

/-- Library `find_first_component`, POSIX style: empty, `//net`, `/`, or a file
or directory name. -/
def find_first_component (path : Str) : Str :=
  match path with
  | [] => []
  | c0 :: _ =>
    if starts_with_net path then path.take 2 ++ upto_separator (path.drop 2)
    else if is_separator c0 then [c0]
    else upto_separator path

/-- The library's forward path iterator (`path::const_iterator`). -/
structure const_iterator where
  /-- The path being iterated. -/
  Path : Str
  /-- The current component. -/
  Component : Str
  /-- The offset of the current component. -/
  Position : Nat

/-- Library `path::begin`. -/
def path_begin (path : Str) : const_iterator :=
  { Path := path, Component := find_first_component path, Position := 0 }

/-- Comparison with `path::end`: the position is the size of the path. -/
def const_iterator.is_end (it : const_iterator) : Bool :=
  it.Position == it.Path.length

/-- Library `const_iterator::operator++`, POSIX style. -/
def const_iterator.increment (it : const_iterator) : const_iterator :=
  let Position := it.Position + it.Component.length
  if Position == it.Path.length then
    { it with Component := [], Position := Position }
  else
    let was_net := starts_with_net it.Component
    if is_separator ((it.Path.drop Position).headD ' ') then
      if was_net then
        { it with Component := (it.Path.drop Position).take 1, Position := Position }
      else
        let Position2 :=
          Position + ((it.Path.drop Position).takeWhile is_separator).length
        if Position2 == it.Path.length && it.Component != ['/'] then
          { it with Component := ['.'], Position := Position2 - 1 }
        else
          { it with Component := upto_separator (it.Path.drop Position2),
                    Position := Position2 }
    else
      { it with Component := upto_separator (it.Path.drop Position),
                Position := Position }

/-- The library's `has_net` test on the first component:
`b->size() > 2 && is_separator((*b)[0]) && (*b)[1] == (*b)[0]`. -/
def has_net (b : Str) : Bool :=
  match b with
  | c0 :: c1 :: _ :: _ => is_separator c0 && c1 == c0
  | _ => false

/-- Library `path::root_path`, POSIX style: `//net/`, `//net`, `/` or empty. -/
def root_path (path : Str) : Str :=
  let b := path_begin path
  if !b.is_end then
    if has_net b.Component then
      let pos := b.increment
      if !pos.is_end && is_separator (pos.Component.headD ' ') then
        path.take (b.Component.length + pos.Component.length)
      else b.Component
    else if is_separator (b.Component.headD ' ') then b.Component
    else []
  else []

/-- Library `path::root_name`, POSIX style: the `//net` name, if any. -/
def root_name (path : Str) : Str :=
  let b := path_begin path
  if !b.is_end then
    if has_net b.Component then b.Component else []
  else []

/-- Library `path::root_directory`, POSIX style. -/
def root_directory (path : Str) : Str :=
  let b := path_begin path
  if !b.is_end then
    let pos := b.increment
    if has_net b.Component && !pos.is_end && is_separator (pos.Component.headD ' ') then
      pos.Component
    else if !has_net b.Component && is_separator (b.Component.headD ' ') then
      b.Component
    else []
  else []

/-- Library `path::has_root_name`. -/
def has_root_name (path : Str) : Bool := !(root_name path).isEmpty

/-- Library `path::has_root_directory`. -/
def has_root_directory (path : Str) : Bool := !(root_directory path).isEmpty

/-- Library `path::is_absolute`, POSIX style: a root directory is enough. -/
def is_absolute (path : Str) : Bool := has_root_directory path

/-- Modelled from the spec: `llvm::sys::path::relative_path` is library code
absent from src/; the spec has it "strip any remaining leading separator".  The
library's algorithm: the path without its root path. -/
def relative_path (path : Str) : Str := path.drop (root_path path).length

/-- Library `path::append` for one component. -/
def append (path component : Str) : Str :=
  let path_has_sep := !path.isEmpty && is_separator (path.getLastD ' ')
  if path_has_sep then
    path ++ component.dropWhile is_separator
  else
    let component_has_sep := !component.isEmpty && is_separator (component.headD ' ')
    if !component_has_sep && !(path.isEmpty || has_root_name component) then
      path ++ '/' :: component
    else
      path ++ component

/-- Modelled from the spec: `llvm::sys::fs::make_absolute` is library code
absent from src/; the spec has it "resolve it to an absolute path using the
current working directory".  `cwd` is what `current_path` yields, `none` when
the working directory cannot be determined.  The library's algorithm: a path
with a root directory is returned as it is, without looking at the working
directory; otherwise the working directory is needed and its failure is the
only failure. -/
def make_absolute (cwd : Option Str) (path : Str) : Option Str :=
  if is_absolute path then some path
  else
    match cwd with
    | none => none
    | some current_dir =>
      let rootDirectory := has_root_directory path
      let rootName := has_root_name path
      if rootDirectory then some path
      else if !rootName then some (append current_dir path)
      else
        some (append (append (append (append [] (root_name path))
          (root_directory current_dir)) (relative_path current_dir))
          (relative_path path))

/-- The loop of the library's `remove_dots`: one round per path component.
`fuel` bounds the rounds; the length of `remaining` is enough. Returns the
component stack (last pushed first) and `needs_change`. -/
def remove_dots_loop (remove_dot_dot absolute : Bool) :
    Nat → Str → List Str → Bool → List Str × Bool
  | 0, _, components, needs_change => (components, needs_change)
  | fuel + 1, remaining, components, needs_change =>
    if remaining.isEmpty then (components, needs_change)
    else
      let component := upto_separator remaining
      let remaining1 := from_separator remaining
      -- Eat the slash; a trailing slash forces a rewrite.
      let remaining2 := remaining1.drop 1
      let needs_change1 :=
        if remaining1.isEmpty then needs_change else needs_change || remaining2.isEmpty
      if component.isEmpty || component == ['.'] then
        remove_dots_loop remove_dot_dot absolute fuel remaining2 components true
      else if remove_dot_dot && component == ['.', '.'] then
        match components with
        | back :: popped =>
          if back != ['.', '.'] then
            remove_dots_loop remove_dot_dot absolute fuel remaining2 popped true
          else if !absolute then
            remove_dots_loop remove_dot_dot absolute fuel remaining2
              (component :: components) true
          else
            remove_dots_loop remove_dot_dot absolute fuel remaining2 components true
        | [] =>
          if !absolute then
            remove_dots_loop remove_dot_dot absolute fuel remaining2 [component] true
          else
            remove_dots_loop remove_dot_dot absolute fuel remaining2 [] true
      else
        remove_dots_loop remove_dot_dot absolute fuel remaining2
          (component :: components) needs_change1

/-- Components joined by the preferred separator. -/
def join_components : List Str → Str
  | [] => []
  | [c] => c
  | c :: cs => c ++ '/' :: join_components cs

/-- Modelled from the spec: `llvm::sys::path::remove_dots` is library code
absent from src/; the spec has it "remove `.` segments and resolve `..`
segments lexically".  The library's algorithm, POSIX style: the root path is
kept, empty and `.` components go, `..` pops the component before it, and the
path is rewritten only when something changed. -/
def remove_dots (the_path : Str) (remove_dot_dot : Bool) : Str :=
  let root := root_path the_path
  let absolute := !root.isEmpty
  let remaining := the_path.drop root.length
  let r := remove_dots_loop remove_dot_dot absolute remaining.length remaining [] false
  if !r.2 then the_path
  else root ++ join_components r.1.reverse

/-- Modelled from the spec: `llvm::sys::path::replace_path_prefix` is library
code absent from src/; the spec has it "if the canonical path begins with the
given root directory string, strip that prefix".  The library's algorithm: the
test is a plain test of a string prefix; the result says whether the prefix was
replaced. -/
def replace_path_prefix (Path OldPrefix NewPrefix : Str) : Bool × Str :=
  if OldPrefix.isEmpty && NewPrefix.isEmpty then (false, Path)
  else if !OldPrefix.isPrefixOf Path then (false, Path)
  else if OldPrefix.length == NewPrefix.length then
    (true, NewPrefix ++ Path.drop NewPrefix.length)
  else (true, NewPrefix ++ Path.drop OldPrefix.length)

/-- Library `root_dir_start`: the offset of the root directory, `none` for
`npos`. -/
def root_dir_start (str : Str) : Option Nat :=
  if decide (str.length > 3) && starts_with_net str then
    if (from_separator (str.drop 2)).isEmpty then none
    else some (2 + (upto_separator (str.drop 2)).length)
  else if is_separator (str.headD ' ') then some 0
  else none

/-- Offset of the last separator of `str`, `none` for `npos`. -/
def find_last_separator (str : Str) : Option Nat :=
  if str.any is_separator then
    some (str.length - 1 - (str.reverse.takeWhile (fun c => !is_separator c)).length)
  else none

/-- Library `filename_pos`. -/
def filename_pos (str : Str) : Nat :=
  if !str.isEmpty && is_separator (str.getLastD ' ') then str.length - 1
  else
    match find_last_separator str with
    | none => 0
    | some pos =>
      if pos == 1 && is_separator (str.headD ' ') then 0 else pos + 1

/-- The loop of `reverse_iterator::operator++` that skips separators unless it
reaches the root directory. -/
def skip_separators_back (Path : Str) (root_dir_pos : Option Nat) : Nat → Nat
  | 0 => 0
  | end_pos + 1 =>
    if some end_pos != root_dir_pos && is_separator (Path.getD end_pos ' ') then
      skip_separators_back Path root_dir_pos end_pos
    else end_pos + 1

/-- Modelled from the spec: `llvm::sys::path::filename` is library code absent
from src/; the spec calls its result the "base name" of an entry.  The
library's algorithm: the last component as the reverse path iterator yields it
(`*rbegin(path)`). -/
def filename (path : Str) : Str :=
  let root_dir_pos := root_dir_start path
  let end_pos := skip_separators_back path root_dir_pos path.length
  if !path.isEmpty && is_separator (path.getLastD ' ') &&
      (match root_dir_pos with
       | none => true
       | some r => decide (end_pos - 1 > r)) then
    ['.']
  else
    let start_pos := filename_pos (path.take end_pos)
    (path.take end_pos).drop start_pos

/-! ## The source file -/

/-- Source lines 30-38. -/
def ShouldSkipFile (file_name : Str) : Bool :=
  file_name.isEmpty || ".".toList.isPrefixOf file_name ||
  ".swp".toList.isSuffixOf file_name || ".swo".toList.isSuffixOf file_name ||
  "#".toList.isSuffixOf file_name || ".cpp".toList.isSuffixOf file_name ||
  ".cc".toList.isSuffixOf file_name || ".c".toList.isSuffixOf file_name

/-- How a call ends: it returns a value, or the process exits with a status. -/
inductive Outcome (α : Type) where
  | returned (value : α)
  | exited (status : Nat)
  deriving DecidableEq, Repr

/-- Source lines 40-47: `GetCwd`; `cwd` is what `current_path` yields. -/
def GetCwd (cwd : Option Str) : Outcome Str :=
  match cwd with
  | none => Outcome.exited 1
  | some dir => Outcome.returned dir

/-- Source lines 49-62. -/
def NormalizePath (cwd : Option Str) (path root_dir : Str) : Str :=
  match make_absolute cwd path with
  | none => []
  | some absolute =>
    let norm_path := remove_dots absolute true
    let replaced := replace_path_prefix norm_path root_dir []
    if replaced.1 then relative_path replaced.2
    else replaced.2

/-- How a call of `NormalizePath` ends.  Source lines 49-62 hold no call of
`exit` and no call of `GetCwd`: each of the three ends of the function is a
`return`. -/
def NormalizePath_call (cwd : Option Str) (path root_dir : Str) : Outcome Str :=
  Outcome.returned (NormalizePath cwd path root_dir)

/-! ## `std::set<std::string>` -/

/-- The order of `std::set<std::string>`: `std::less<std::string>`, that is
`compare(...) < 0`: the first differing `char` decides, compared as unsigned
values, and a proper prefix comes first. -/
def string_less : Str → Str → Bool
  | [], [] => false
  | [], _ :: _ => true
  | _ :: _, [] => false
  | a :: as, b :: bs =>
    if a.toNat < b.toNat then true
    else if b.toNat < a.toNat then false
    else string_less as bs

/-- A `std::set<std::string>`, held as the sequence its iteration yields. -/
abbrev StringSet := List Str

/-- The call `std::set::insert`: the element goes to its place in the order
unless an equivalent element is there already. -/
def StringSet.insert (x : Str) : StringSet → StringSet
  | [] => [x]
  | y :: ys =>
    if string_less x y then x :: y :: ys
    else if string_less y x then y :: StringSet.insert x ys
    else y :: ys

/-! ## `llvm::sys::fs`: directory streams and the recursive iterator -/

/-- Library `llvm::sys::fs::file_type`. -/
inductive file_type where
  | status_error
  | file_not_found
  | regular_file
  | directory_file
  | symlink_file
  | block_file
  | character_file
  | fifo_file
  | socket_file
  | type_unknown
  deriving DecidableEq, Repr

/-- What the iterator and the file system answer about one directory entry:
`Path` is `walker->path()`, `DType` the type the directory stream reported for
it, `Status` the answer of `status()` (a `stat` that follows symbolic links),
`none` when it fails, and `opens` whether the entry can be opened as a
directory stream. -/
structure directory_entry where
  /-- The path the iterator reports. -/
  Path : Str
  /-- The type the directory stream reported. -/
  DType : file_type
  /-- The type `status()` reports, `none` when `stat` fails. -/
  Status : Option file_type
  /-- Whether opening the entry as a directory succeeds. -/
  opens : Bool
  deriving DecidableEq, Repr

/-- What reading a directory yields, entry after entry (`.` and `..` left out,
as the library does): the stream ends, or a read fails, or there is an entry,
with what its own stream would yield (`content`) and the rest of this stream
(`next`). -/
inductive DirStream where
  | end_of_stream
  | read_error
  | entry (e : directory_entry) (content : DirStream) (next : DirStream)
  deriving DecidableEq, Repr

/-- The file system as the walk sees it: what opening a directory by name
gives, `none` when it cannot be opened. -/
abbrev FileSystem := Str → Option DirStream

/-- The number of entries of a stream, those of the contents included. -/
def DirStream.size : DirStream → Nat
  | DirStream.end_of_stream => 0
  | DirStream.read_error => 0
  | DirStream.entry _ content next => content.size + next.size + 1

/-- Library `directory_entry::type()`: the reported type, or the one of
`status()` when the stream reported none. -/
def directory_entry.type (e : directory_entry) : file_type :=
  if e.DType != file_type.type_unknown then e.DType
  else
    match e.Status with
    | some t => t
    | none => file_type.type_unknown

/-- The state of a `directory_iterator`: at the end (its current entry is the
default one), on the `.` placeholder it holds after opening when the first
read failed, or on an entry, with the rest of the stream. -/
inductive directory_iterator where
  | at_end
  | at_dot
  | at_entry (e : directory_entry) (content : DirStream) (rest : DirStream)
  deriving DecidableEq, Repr

/-- Library `directory_iterator_increment`: the error code (`true`: set) and
the new state.  A failed read leaves the current entry as it is. -/
def directory_iterator.increment (it : directory_iterator) : Bool × directory_iterator :=
  match it with
  | directory_iterator.at_end => (false, directory_iterator.at_end)
  | directory_iterator.at_dot => (true, directory_iterator.at_dot)
  | directory_iterator.at_entry _ _ rest =>
    match rest with
    | DirStream.end_of_stream => (false, directory_iterator.at_end)
    | DirStream.read_error => (true, it)
    | DirStream.entry e content next => (false, directory_iterator.at_entry e content next)

/-- Library `directory_iterator_construct`: opening fails (error, end
iterator), or the first entry is read. -/
def directory_iterator.construct (dir : Option DirStream) : Bool × directory_iterator :=
  match dir with
  | none => (true, directory_iterator.at_end)
  | some DirStream.end_of_stream => (false, directory_iterator.at_end)
  | some DirStream.read_error => (true, directory_iterator.at_dot)
  | some (DirStream.entry e content next) =>
    (false, directory_iterator.at_entry e content next)

/-- What opening the current entry of an iterator as a directory gives. -/
def directory_iterator.open_current (it : directory_iterator) : Option DirStream :=
  match it with
  | directory_iterator.at_entry e content _ => if e.opens then some content else none
  | _ => none

/-- The type `recursive_directory_iterator::increment` decides on: the type of
the entry, and for a symbolic link the type `status()` gives when it succeeds
(the iterator follows symbolic links). -/
def directory_entry.resolved_type (e : directory_entry) : file_type :=
  if e.type == file_type.symlink_file then
    match e.Status with
    | some t => t
    | none => e.type
  else e.type

/-- The resolved type of the current entry of an iterator. -/
def directory_iterator.push_type (it : directory_iterator) : file_type :=
  match it with
  | directory_iterator.at_entry e _ _ => e.resolved_type
  | _ => file_type.type_unknown

/-- Library `RecDirIterState`, without the level counter, which the source never
reads. -/
structure RecDirIterState where
  /-- The stack of open directories, the innermost first. -/
  Stack : List directory_iterator
  /-- Set by `no_push()`. -/
  HasNoPushRequest : Bool
  deriving DecidableEq, Repr

/-- A `recursive_directory_iterator`; `none` is the end iterator. -/
abbrev recursive_directory_iterator := Option RecDirIterState

/-- The constructor of `recursive_directory_iterator`: when the directory
iterator it pushes is at the end, also because opening failed, the result is
the end iterator. -/
def recursive_directory_iterator.construct (dir : Option DirStream) :
    Bool × recursive_directory_iterator :=
  let r := directory_iterator.construct dir
  match r.2 with
  | directory_iterator.at_end => (r.1, none)
  | top => (r.1, some { Stack := [top], HasNoPushRequest := false })

/-- The closing loop of `recursive_directory_iterator::increment`:
`while (!Stack.empty() && Stack.top().increment(ec) == end_itr) Stack.pop()`. -/
def unwind (ec : Bool) : List directory_iterator → Bool × List directory_iterator
  | [] => (ec, [])
  | top :: below =>
    let r := top.increment
    match r.2 with
    | directory_iterator.at_end => unwind r.1 below
    | top1 => (r.1, top1 :: below)

/-- The end of `recursive_directory_iterator::increment`: unwind, and reset the
state when the stack is empty. -/
def unwind_and_finish (ec : Bool) (stack : List directory_iterator) :
    Bool × recursive_directory_iterator :=
  let r := unwind ec stack
  match r.2 with
  | [] => (r.1, none)
  | stack1 => (r.1, some { Stack := stack1, HasNoPushRequest := false })

/-- Library `recursive_directory_iterator::increment(ec)`. -/
def recursive_directory_iterator.increment (ec : Bool) (State : RecDirIterState) :
    Bool × recursive_directory_iterator :=
  if State.HasNoPushRequest then unwind_and_finish ec State.Stack
  else
    match State.Stack with
    | [] => unwind_and_finish ec []
    | top :: below =>
      if top.push_type == file_type.directory_file then
        let pushed := directory_iterator.construct top.open_current
        match pushed.2 with
        | directory_iterator.at_end => unwind_and_finish pushed.1 (top :: below)
        | sub =>
          (pushed.1, some { Stack := sub :: top :: below, HasNoPushRequest := false })
      else unwind_and_finish ec (top :: below)

/-- The call `walker.no_push()`. -/
def RecDirIterState.no_push (State : RecDirIterState) : RecDirIterState :=
  { State with HasNoPushRequest := true }

/-- The entry `walker->` refers to: the current entry of the innermost
directory iterator. -/
def RecDirIterState.current (State : RecDirIterState) : Option directory_entry :=
  match State.Stack with
  | directory_iterator.at_entry e _ _ :: _ => some e
  | _ => none

/-! ## The walk -/

/-- Source lines 71-103: the `for` loop of `CollectExportedHeaderSet`, one
round per unit of `fuel`; `ec` and `walker` are the variables of the source.
`none`: the fuel ran out, or the walker has no current entry although `ec` is
clear. -/
def CollectExportedHeaderSet_loop (cwd : Option Str) (root_dir : Str) :
    Nat → Bool → recursive_directory_iterator → StringSet → Option (Bool × StringSet)
  | 0, _, _, _ => none
  | fuel + 1, ec, walker, exported_headers =>
    match walker with
    | none => some (true, exported_headers)
    | some State =>
      if ec then some (false, exported_headers)
      else
        match State.current with
        | none => none
        | some e =>
          let file_path := e.Path
          let file_name := filename file_path
          if ShouldSkipFile file_name then
            let r := recursive_directory_iterator.increment ec State.no_push
            CollectExportedHeaderSet_loop cwd root_dir fuel r.1 r.2 exported_headers
          else
            match e.Status with
            | none => some (false, exported_headers)
            | some type =>
              if type != file_type.symlink_file && type != file_type.regular_file then
                let r := recursive_directory_iterator.increment ec State
                CollectExportedHeaderSet_loop cwd root_dir fuel r.1 r.2 exported_headers
              else
                let r := recursive_directory_iterator.increment ec State
                CollectExportedHeaderSet_loop cwd root_dir fuel r.1 r.2
                  (StringSet.insert (NormalizePath cwd file_path root_dir) exported_headers)

/-- The number of rounds the loop is given for a directory: one per entry and
one to see the end. -/
def walk_fuel (dir : Option DirStream) : Nat :=
  match dir with
  | none => 1
  | some s => s.size + 1

/-- Source lines 64-104.  The result is the returned flag and the set the
pointer refers to afterwards. -/
def CollectExportedHeaderSet (fs : FileSystem) (cwd : Option Str) (dir_name : Str)
    (exported_headers : StringSet) (root_dir : Str) : Option (Bool × StringSet) :=
  let w := recursive_directory_iterator.construct (fs dir_name)
  CollectExportedHeaderSet_loop cwd root_dir (walk_fuel (fs dir_name)) w.1 w.2
    exported_headers

/-- Source lines 110-115: the loop over the directories. -/
def CollectAllExportedHeaders_loop (fs : FileSystem) (cwd : Option Str) (root_dir : Str) :
    List Str → StringSet → Option (Outcome StringSet)
  | [], exported_headers => some (Outcome.returned exported_headers)
  | dir :: dirs, exported_headers =>
    match CollectExportedHeaderSet fs cwd dir exported_headers root_dir with
    | none => none
    | some (false, _) => some (Outcome.exited 1)
    | some (true, collected) => CollectAllExportedHeaders_loop fs cwd root_dir dirs collected

/-- Source lines 106-117. -/
def CollectAllExportedHeaders (fs : FileSystem) (cwd : Option Str)
    (exported_header_dirs : List Str) (root_dir : Str) : Option (Outcome StringSet) :=
  CollectAllExportedHeaders_loop fs cwd root_dir exported_header_dirs []

/-! ## The walk over the tree, and what it visits -/

/-- Strictly increasing in the order of the set. -/
def StrictlySorted (s : StringSet) : Prop :=
  List.Pairwise (fun a b => string_less a b = true) s

/-- What the loop body does to the set for an entry that is not skipped and
whose `status()` gave type `t`. -/
def collect_entry (cwd : Option Str) (root_dir : Str) (e : directory_entry)
    (t : file_type) (acc : StringSet) : StringSet :=
  if t != file_type.symlink_file && t != file_type.regular_file then acc
  else StringSet.insert (NormalizePath cwd e.Path root_dir) acc

/-- The walk of one directory stream, by recursion over the tree: the flag the
source returns and the set afterwards. -/
def walk (cwd : Option Str) (root_dir : Str) : DirStream → StringSet → Bool × StringSet
  | DirStream.end_of_stream, acc => (true, acc)
  | DirStream.read_error, acc => (false, acc)
  | DirStream.entry e content next, acc =>
    if ShouldSkipFile (filename e.Path) then walk cwd root_dir next acc
    else
      match e.Status with
      | none => (false, acc)
      | some t =>
        if e.resolved_type == file_type.directory_file && e.opens then
          if (walk cwd root_dir content (collect_entry cwd root_dir e t acc)).1 then
            walk cwd root_dir next
              (walk cwd root_dir content (collect_entry cwd root_dir e t acc)).2
          else walk cwd root_dir content (collect_entry cwd root_dir e t acc)
        else walk cwd root_dir next (collect_entry cwd root_dir e t acc)

/-- The walk of pending streams one after the other, until one fails. -/
def walk_all (cwd : Option Str) (root_dir : Str) : List DirStream → StringSet → Bool × StringSet
  | [], acc => (true, acc)
  | s :: rest, acc =>
    if (walk cwd root_dir s acc).1 then walk_all cwd root_dir rest (walk cwd root_dir s acc).2
    else walk cwd root_dir s acc

/-- The entries still to come in pending streams. -/
def pending_size : List DirStream → Nat
  | [] => 0
  | s :: rest => s.size + pending_size rest

/-- The iterators `stack` are on entries, and `pending` are the rests of their
streams. -/
inductive Frames : List directory_iterator → List DirStream → Prop where
  | nil : Frames [] []
  | cons (e : directory_entry) (content rest : DirStream) {stack : List directory_iterator}
      {pending : List DirStream} (h : Frames stack pending) :
      Frames (directory_iterator.at_entry e content rest :: stack) (rest :: pending)

/-- The variables `ec` and `walker` at the head of the loop stand for the
pending streams: what the loop is still to walk. -/
inductive Represents : Bool → recursive_directory_iterator → List DirStream → Prop where
  | done (ec : Bool) : Represents ec none []
  | skip_end {ec : Bool} {walker : recursive_directory_iterator} {pending : List DirStream}
      (h : Represents ec walker pending) :
      Represents ec walker (DirStream.end_of_stream :: pending)
  | failed (State : RecDirIterState) (pending : List DirStream) :
      Represents true (some State) (DirStream.read_error :: pending)
  | at_entry (e : directory_entry) (content rest : DirStream)
      {stack : List directory_iterator} {pending : List DirStream} (h : Frames stack pending) :
      Represents false
        (some { Stack := directory_iterator.at_entry e content rest :: stack,
                HasNoPushRequest := false })
        (DirStream.entry e content rest :: pending)

/-- The entry `e'` (with what its own stream yields, `c'`) lies beneath the
directory whose stream is the first argument, and every directory between the
two (every ancestor of `e'` strictly below the starting directory) is an entry
that is not skipped, that the iterator takes for a directory, and that opens. -/
inductive Unpruned : DirStream → directory_entry → DirStream → Prop where
  | here (e : directory_entry) (c n : DirStream) : Unpruned (DirStream.entry e c n) e c
  | later (e : directory_entry) (c n : DirStream) {e' : directory_entry} {c' : DirStream}
      (h : Unpruned n e' c') : Unpruned (DirStream.entry e c n) e' c'
  | inside (e : directory_entry) (c n : DirStream) {e' : directory_entry} {c' : DirStream}
      (hskip : ShouldSkipFile (filename e.Path) = false)
      (hdir : e.resolved_type = file_type.directory_file) (hopen : e.opens = true)
      (h : Unpruned c e' c') : Unpruned (DirStream.entry e c n) e' c'

/-- Reading the stream to its end meets no read error. -/
def DirStream.ends_well : DirStream → Bool
  | DirStream.end_of_stream => true
  | DirStream.read_error => false
  | DirStream.entry _ _ next => next.ends_well

/-- The entry is collected: its base name is not skipped and `status()` says
regular file or symbolic link. -/
def Accepted (e : directory_entry) : Prop :=
  ShouldSkipFile (filename e.Path) = false ∧
    (e.Status = some file_type.regular_file ∨ e.Status = some file_type.symlink_file)

/-- No enumeration or stat error occurs in the walk of `start`: no read of a
visited directory fails, and `stat` succeeds on every visited entry that is not
skipped. -/
def NoWalkError (start : DirStream) : Prop :=
  start.ends_well = true ∧
    ∀ d cd, Unpruned start d cd → ShouldSkipFile (filename d.Path) = false →
      d.Status ≠ none ∧
        (d.resolved_type = file_type.directory_file → d.opens = true → cd.ends_well = true)

/-- Whether the walk of a stream returns `true`, by recursion over the tree. -/
def walk_succeeds : DirStream → Bool
  | DirStream.end_of_stream => true
  | DirStream.read_error => false
  | DirStream.entry e content next =>
    if ShouldSkipFile (filename e.Path) then walk_succeeds next
    else
      match e.Status with
      | none => false
      | some _ =>
        if e.resolved_type == file_type.directory_file && e.opens then
          walk_succeeds content && walk_succeeds next
        else walk_succeeds next

/-- The tree with everything about a skipped entry but its path erased: its
types, whether it opens, and all that lies beneath it. -/
def prune : DirStream → DirStream
  | DirStream.end_of_stream => DirStream.end_of_stream
  | DirStream.read_error => DirStream.read_error
  | DirStream.entry e content next =>
    if ShouldSkipFile (filename e.Path) then
      DirStream.entry
        { Path := e.Path, DType := file_type.type_unknown, Status := none, opens := false }
        DirStream.end_of_stream (prune next)
    else DirStream.entry e (prune content) (prune next)

/-- The loop of `CollectAllExportedHeaders` over the walks of the trees. -/
def collect_all (fs : FileSystem) (cwd : Option Str) (root_dir : Str) :
    List Str → StringSet → Outcome StringSet
  | [], acc => Outcome.returned acc
  | dir :: dirs, acc =>
    match fs dir with
    | none => collect_all fs cwd root_dir dirs acc
    | some s =>
      if (walk cwd root_dir s acc).1 then
        collect_all fs cwd root_dir dirs (walk cwd root_dir s acc).2
      else Outcome.exited 1

/-- The lexicographic order on strings by the values of the characters. -/
def Lexicographic (a b : Str) : Prop := List.Lex (fun x y : Char => x.toNat < y.toNat) a b

/-- A component that `remove_dots` keeps as it is: not empty, without a
separator, and neither `.` nor `..`. -/
def NormalName (c : Str) : Prop :=
  c ≠ [] ∧ (∀ x ∈ c, is_separator x = false) ∧ c ≠ ['.'] ∧ c ≠ ['.', '.']

/-- A component that `remove_dots` pushes on the stack `st`: a normal name, or
`..` in a relative path when the stack is empty or has `..` on top. -/
def Pushable (absolute : Bool) (st : List Str) (c : Str) : Prop :=
  NormalName c ∨
    (c = ['.', '.'] ∧ absolute = false ∧ (st = [] ∨ st.head? = some ['.', '.']))

/-- A component stack that `remove_dots` can have built (last pushed first). -/
inductive CleanStack (absolute : Bool) : List Str → Prop where
  | nil : CleanStack absolute []
  | cons {st : List Str} {c : Str} (h : CleanStack absolute st) (hc : Pushable absolute st c) :
      CleanStack absolute (c :: st)

/-- Components that `remove_dots` pushes one after the other on the stack `st`. -/
inductive CleanFrom (absolute : Bool) : List Str → List Str → Prop where
  | nil (st : List Str) : CleanFrom absolute st []
  | cons {st : List Str} {c : Str} {cs : List Str} (hc : Pushable absolute st c)
      (h : CleanFrom absolute (c :: st) cs) : CleanFrom absolute st (c :: cs)

/-- No separator of the string is followed at once by a second separator. -/
def no_double_separator : Str → Bool
  | [] => true
  | [_] => true
  | a :: b :: r => !(is_separator a && is_separator b) && no_double_separator (b :: r)

/-! ## Concrete directory trees -/

/-- A regular file at `path`. -/
def regular_entry (path : String) : directory_entry :=
  { Path := path.toList, DType := file_type.regular_file,
    Status := some file_type.regular_file, opens := false }

/-- A directory at `path` that opens. -/
def directory (path : String) : directory_entry :=
  { Path := path.toList, DType := file_type.directory_file,
    Status := some file_type.directory_file, opens := true }

/-- A stream that yields the regular file `path` and then `next`. -/
def file_then (path : String) (next : DirStream) : DirStream :=
  DirStream.entry (regular_entry path) DirStream.end_of_stream next

/-- The stream of `/project/include` in the scenario of the spec: `foo.h`,
`foo.cpp`, `.foo.h.swp` and the directory `detail` with `bar.h`. -/
def scenario_include : DirStream :=
  file_then "/project/include/foo.h"
    (file_then "/project/include/foo.cpp"
      (file_then "/project/include/.foo.h.swp"
        (DirStream.entry (directory "/project/include/detail")
          (file_then "/project/include/detail/bar.h" DirStream.end_of_stream)
          DirStream.end_of_stream)))

/-- The file system of the scenario: only `/project/include` opens. -/
def scenario_fs : FileSystem := fun dir_name =>
  if dir_name = "/project/include".toList then some scenario_include else none

/-- The stream of a directory `/d` with the seven regular files `x.cpp`, `x.cc`,
`x.c`, `.hidden.h`, `backup.h.swp`, `lock#` and `public.h`. -/
def seven_files : DirStream :=
  file_then "/d/x.cpp" (file_then "/d/x.cc" (file_then "/d/x.c" (file_then "/d/.hidden.h"
    (file_then "/d/backup.h.swp" (file_then "/d/lock#"
      (file_then "/d/public.h" DirStream.end_of_stream))))))

/-- The file system in which every directory name opens on `seven_files`. -/
def seven_files_fs : FileSystem := fun _ => some seven_files

/-- An entry at `path` on which `stat` fails. -/
def unstattable_entry (path : String) : directory_entry :=
  { Path := path.toList, DType := file_type.regular_file, Status := none, opens := false }

/-- The stream of `/project/include` with `foo.h` and a directory `.git` that
holds the sentinel `public.h` and an entry on which `stat` fails. -/
def include_with_git : DirStream :=
  DirStream.entry (directory "/project/include/.git")
    (file_then "/project/include/.git/public.h"
      (DirStream.entry (unstattable_entry "/project/include/.git/index.lock")
        DirStream.end_of_stream DirStream.read_error))
    (file_then "/project/include/foo.h" DirStream.end_of_stream)

/-- The same directory with nothing beneath `.git`. -/
def include_with_empty_git : DirStream :=
  DirStream.entry (directory "/project/include/.git") DirStream.end_of_stream
    (file_then "/project/include/foo.h" DirStream.end_of_stream)

/-- A file system in which no directory opens. -/
def nothing_opens : FileSystem := fun _ => none

/-- The stream of `/project/include` with `foo.h` and a directory `locked` that
cannot be opened. -/
def include_with_locked : DirStream :=
  DirStream.entry
    { Path := "/project/include/locked".toList, DType := file_type.directory_file,
      Status := some file_type.directory_file, opens := false }
    DirStream.end_of_stream
    (file_then "/project/include/foo.h" DirStream.end_of_stream)

/-- The stream of the directory `include`, opened by a relative name, with the
file `foo.h`. -/
def relative_include : DirStream := file_then "include/foo.h" DirStream.end_of_stream

/-- The file system in which the relative name `include` opens. -/
def relative_fs : FileSystem := fun dir_name =>
  if dir_name = "include".toList then some relative_include else none

/-- The stream of a directory `/project/src` whose two entries are reported
under paths with `..` and `.` segments that normalize to the strings of the
scenario. -/
def second_route : DirStream :=
  file_then "/project/src/../include/foo.h"
    (file_then "/project/include/./detail/bar.h" DirStream.end_of_stream)

/-- The file system with `/project/include` of the scenario and `/project/src`. -/
def two_routes_fs : FileSystem := fun dir_name =>
  if dir_name = "/project/include".toList then some scenario_include
  else if dir_name = "/project/src".toList then some second_route
  else none

/-! ## Lemmas -/

theorem string_less_irrefl (a : Str) : string_less a a = false := by
  induction a with
  | nil => rfl
  | cons c cs ih => simp [string_less, ih]

theorem string_less_trans (a b c : Str) (hab : string_less a b = true)
    (hbc : string_less b c = true) : string_less a c = true := by
  induction a generalizing b c with
  | nil =>
    cases b with
    | nil => simp [string_less] at hab
    | cons y ys =>
      cases c with
      | nil => simp [string_less] at hbc
      | cons z zs => simp [string_less]
  | cons x xs ih =>
    cases b with
    | nil => simp [string_less] at hab
    | cons y ys =>
      cases c with
      | nil => simp [string_less] at hbc
      | cons z zs =>
        simp only [string_less] at hab hbc ⊢
        by_cases h1 : x.toNat < y.toNat
        · by_cases h2 : y.toNat < z.toNat
          · have : x.toNat < z.toNat := by omega
            simp [this]
          · simp only [h2, if_false] at hbc
            by_cases h3 : z.toNat < y.toNat
            · simp [h3] at hbc
            · have : x.toNat < z.toNat := by omega
              simp [this]
        · simp only [h1, if_false] at hab
          by_cases h1b : y.toNat < x.toNat
          · simp [h1b] at hab
          · simp only [h1b, if_false] at hab
            by_cases h2 : y.toNat < z.toNat
            · have : x.toNat < z.toNat := by omega
              simp [this]
            · simp only [h2, if_false] at hbc
              by_cases h3 : z.toNat < y.toNat
              · simp [h3] at hbc
              · simp only [h3, if_false] at hbc
                have e1 : ¬ x.toNat < z.toNat := by omega
                have e2 : ¬ z.toNat < x.toNat := by omega
                simp only [e1, e2, if_false]
                exact ih ys zs hab hbc

theorem char_eq_of_toNat_eq (a b : Char) (h : a.toNat = b.toNat) : a = b := by
  rw [← Char.ofNat_toNat a, ← Char.ofNat_toNat b, h]

theorem string_less_total (a b : Str) (hab : string_less a b = false)
    (hba : string_less b a = false) : a = b := by
  induction a generalizing b with
  | nil =>
    cases b with
    | nil => rfl
    | cons y ys => simp [string_less] at hab
  | cons x xs ih =>
    cases b with
    | nil => simp [string_less] at hba
    | cons y ys =>
      simp only [string_less] at hab hba
      by_cases h1 : x.toNat < y.toNat
      · simp [h1] at hab
      · by_cases h2 : y.toNat < x.toNat
        · simp [h2] at hba
        · simp only [h1, h2, if_false] at hab hba
          have hxy : x = y := char_eq_of_toNat_eq x y (by omega)
          rw [hxy, ih ys hab hba]

theorem StringSet.mem_insert (x y : Str) (s : StringSet) :
    y ∈ StringSet.insert x s ↔ y = x ∨ y ∈ s := by
  induction s with
  | nil => simp [StringSet.insert]
  | cons z zs ih =>
    cases h1 : string_less x z with
    | true => simp [StringSet.insert, h1]
    | false =>
      cases h2 : string_less z x with
      | true =>
        simp only [StringSet.insert, h1, h2, if_true, List.mem_cons, ih, Bool.false_eq_true,
          if_false]
        tauto
      | false =>
        have hxz : x = z := string_less_total x z h1 h2
        subst hxz
        simp only [StringSet.insert, h1, List.mem_cons, Bool.false_eq_true, if_false]
        tauto

theorem StringSet.insert_sorted (x : Str) (s : StringSet) (hs : StrictlySorted s) :
    StrictlySorted (StringSet.insert x s) := by
  induction s with
  | nil => simp [StringSet.insert, StrictlySorted]
  | cons z zs ih =>
    have hz := (List.pairwise_cons.mp hs).1
    have hzs : StrictlySorted zs := (List.pairwise_cons.mp hs).2
    cases h1 : string_less x z with
    | true =>
      simp only [StringSet.insert, h1, if_true]
      refine List.pairwise_cons.mpr ⟨?_, hs⟩
      intro a ha
      rcases List.mem_cons.mp ha with h | h
      · rw [h]; exact h1
      · exact string_less_trans x z a h1 (hz a h)
    | false =>
      cases h2 : string_less z x with
      | true =>
        simp only [StringSet.insert, h1, h2, if_true, Bool.false_eq_true, if_false]
        refine List.pairwise_cons.mpr ⟨?_, ih hzs⟩
        intro a ha
        rcases (StringSet.mem_insert x a zs).mp ha with h | h
        · rw [h]; exact h2
        · exact hz a h
      | false =>
        simp only [StringSet.insert, h1, h2, Bool.false_eq_true, if_false]
        exact hs

theorem StrictlySorted.nodup (s : StringSet) (hs : StrictlySorted s) : s.Nodup := by
  induction s with
  | nil => exact List.nodup_nil
  | cons z zs ih =>
    have hz := (List.pairwise_cons.mp hs).1
    refine List.nodup_cons.mpr ⟨?_, ih (List.pairwise_cons.mp hs).2⟩
    intro hmem
    have := hz z hmem
    rw [string_less_irrefl] at this
    exact Bool.noConfusion this

theorem unwind_represents (ec : Bool) (stack : List directory_iterator)
    (pending : List DirStream) (h : Frames stack pending) :
    Represents (unwind_and_finish ec stack).1 (unwind_and_finish ec stack).2 pending := by
  induction h generalizing ec with
  | nil => exact Represents.done ec
  | cons e content rest hf ih =>
    cases rest with
    | end_of_stream =>
      have := ih false
      simp only [unwind_and_finish, unwind, directory_iterator.increment] at this ⊢
      exact Represents.skip_end this
    | read_error =>
      simp only [unwind_and_finish, unwind, directory_iterator.increment]
      exact Represents.failed _ _
    | entry e1 c1 n1 =>
      simp only [unwind_and_finish, unwind, directory_iterator.increment]
      exact Represents.at_entry e1 c1 n1 hf

theorem construct_represents (content : DirStream) (stack : List directory_iterator)
    (pending : List DirStream) (h : Frames stack pending) :
    Represents
      (match (directory_iterator.construct (some content)).2 with
        | directory_iterator.at_end =>
          unwind_and_finish (directory_iterator.construct (some content)).1 stack
        | sub =>
          ((directory_iterator.construct (some content)).1,
            some { Stack := sub :: stack, HasNoPushRequest := false })).1
      (match (directory_iterator.construct (some content)).2 with
        | directory_iterator.at_end =>
          unwind_and_finish (directory_iterator.construct (some content)).1 stack
        | sub =>
          ((directory_iterator.construct (some content)).1,
            some { Stack := sub :: stack, HasNoPushRequest := false })).2
      (content :: pending) := by
  cases content with
  | end_of_stream =>
    simp only [directory_iterator.construct]
    exact Represents.skip_end (unwind_represents false stack pending h)
  | read_error =>
    simp only [directory_iterator.construct]
    exact Represents.failed _ _
  | entry e1 c1 n1 =>
    simp only [directory_iterator.construct]
    exact Represents.at_entry e1 c1 n1 h

theorem increment_represents (ec : Bool) (e : directory_entry) (content rest : DirStream)
    (stack : List directory_iterator) (pending : List DirStream) (h : Frames stack pending) :
    Represents
      (recursive_directory_iterator.increment ec
        { Stack := directory_iterator.at_entry e content rest :: stack,
          HasNoPushRequest := false }).1
      (recursive_directory_iterator.increment ec
        { Stack := directory_iterator.at_entry e content rest :: stack,
          HasNoPushRequest := false }).2
      (if e.resolved_type == file_type.directory_file && e.opens then
        content :: rest :: pending
       else rest :: pending) := by
  have hf : Frames (directory_iterator.at_entry e content rest :: stack) (rest :: pending) :=
    Frames.cons e content rest h
  by_cases hd : e.resolved_type = file_type.directory_file
  · cases ho : e.opens with
    | true =>
      simp only [recursive_directory_iterator.increment, directory_iterator.push_type, hd,
        directory_iterator.open_current, ho, beq_self_eq_true, if_true, Bool.and_self,
        Bool.false_eq_true, if_false]
      exact construct_represents content _ _ hf
    | false =>
      simp only [recursive_directory_iterator.increment, directory_iterator.push_type, hd,
        directory_iterator.open_current, ho, beq_self_eq_true, if_true, Bool.and_false,
        Bool.false_eq_true, if_false, directory_iterator.construct]
      exact unwind_represents _ _ _ hf
  · have hb : (e.resolved_type == file_type.directory_file) = false := by
      simpa using hd
    simp only [recursive_directory_iterator.increment, directory_iterator.push_type, hb,
      Bool.false_and, Bool.false_eq_true, if_false]
    exact unwind_represents _ _ _ hf

theorem no_push_represents (ec : Bool) (e : directory_entry) (content rest : DirStream)
    (stack : List directory_iterator) (pending : List DirStream) (h : Frames stack pending) :
    Represents
      (recursive_directory_iterator.increment ec
        (RecDirIterState.no_push
          (RecDirIterState.mk (directory_iterator.at_entry e content rest :: stack) false))).1
      (recursive_directory_iterator.increment ec
        (RecDirIterState.no_push
          (RecDirIterState.mk (directory_iterator.at_entry e content rest :: stack) false))).2
      (rest :: pending) := by
  simp only [recursive_directory_iterator.increment, RecDirIterState.no_push, if_true]
  exact unwind_represents _ _ _ (Frames.cons e content rest h)

theorem walk_all_entry (cwd : Option Str) (root_dir : Str) (e : directory_entry)
    (content rest : DirStream) (pending : List DirStream) (acc : StringSet) :
    walk_all cwd root_dir (DirStream.entry e content rest :: pending) acc =
      if ShouldSkipFile (filename e.Path) then walk_all cwd root_dir (rest :: pending) acc
      else
        match e.Status with
        | none => (false, acc)
        | some t =>
          walk_all cwd root_dir
            (if e.resolved_type == file_type.directory_file && e.opens then
              content :: rest :: pending
             else rest :: pending)
            (collect_entry cwd root_dir e t acc) := by
  cases hs : ShouldSkipFile (filename e.Path) with
  | true => simp only [walk_all, walk, hs, if_true]
  | false =>
    cases hst : e.Status with
    | none => simp [walk_all, walk, hs, hst]
    | some t =>
      cases hd : (e.resolved_type == file_type.directory_file && e.opens) with
      | true =>
        simp only [walk_all, walk, hs, hst, hd, if_true, Bool.false_eq_true, if_false]
        cases h1 : (walk cwd root_dir content (collect_entry cwd root_dir e t acc)).1 with
        | true => simp only [h1, if_true]
        | false => simp only [h1, Bool.false_eq_true, if_false]
      | false => simp only [walk_all, walk, hs, hst, hd, Bool.false_eq_true, if_false]

/-- The loop of the source computes the walk of the pending streams, and the
fuel of one round per pending entry and one more is enough. -/
theorem loop_eq_walk_all (cwd : Option Str) (root_dir : Str) (fuel : Nat) :
    ∀ (ec : Bool) (walker : recursive_directory_iterator) (pending : List DirStream)
      (acc : StringSet), Represents ec walker pending → pending_size pending < fuel →
      CollectExportedHeaderSet_loop cwd root_dir fuel ec walker acc =
        some (walk_all cwd root_dir pending acc) := by
  induction fuel with
  | zero => intro ec walker pending acc _ hlt; exact absurd hlt (Nat.not_lt_zero _)
  | succ fuel ih =>
    intro ec walker pending acc hrep
    induction hrep with
    | done ec => intro _; simp [CollectExportedHeaderSet_loop, walk_all]
    | skip_end h ih2 =>
      intro hlt
      have := ih2 (by simpa [pending_size, DirStream.size] using hlt)
      simpa [walk_all, walk] using this
    | failed State pending =>
      intro _; simp [CollectExportedHeaderSet_loop, walk_all, walk]
    | at_entry e content rest hf =>
      rename_i stack pending
      intro hlt
      rw [walk_all_entry]
      simp only [pending_size, DirStream.size] at hlt
      cases hs : ShouldSkipFile (filename e.Path) with
      | true =>
        simp only [CollectExportedHeaderSet_loop, RecDirIterState.current, hs, if_true,
          Bool.false_eq_true, if_false]
        exact ih _ _ _ _ (no_push_represents false e content rest stack pending hf)
          (by simp only [pending_size]; omega)
      | false =>
        cases hst : e.Status with
        | none =>
          simp [CollectExportedHeaderSet_loop, RecDirIterState.current, hs, hst]
        | some t =>
          have hrep := increment_represents false e content rest stack pending hf
          have hsize : pending_size
              (if e.resolved_type == file_type.directory_file && e.opens then
                content :: rest :: pending else rest :: pending) < fuel := by
            split <;> simp only [pending_size] <;> omega
          have hrun := fun acc1 => ih _ _ _ acc1 hrep hsize
          simp only [CollectExportedHeaderSet_loop, RecDirIterState.current, hs, hst, if_false,
            Bool.false_eq_true]
          unfold collect_entry
          split
          · exact hrun _
          · exact hrun _

theorem construct_root_represents (dir : Option DirStream) :
    Represents (recursive_directory_iterator.construct dir).1
      (recursive_directory_iterator.construct dir).2
      (match dir with
        | none => []
        | some s => [s]) := by
  cases dir with
  | none => exact Represents.done _
  | some s =>
    cases s with
    | end_of_stream => exact Represents.skip_end (Represents.done _)
    | read_error => exact Represents.failed _ _
    | entry e c n => exact Represents.at_entry e c n Frames.nil

/-- What `CollectExportedHeaderSet` returns: a directory that cannot be opened
leaves the set as it is and reports success; otherwise the result is the walk
of the tree. -/
theorem CollectExportedHeaderSet_eq (fs : FileSystem) (cwd : Option Str) (dir_name : Str)
    (acc : StringSet) (root_dir : Str) :
    CollectExportedHeaderSet fs cwd dir_name acc root_dir =
      some (match fs dir_name with
        | none => (true, acc)
        | some s => walk cwd root_dir s acc) := by
  unfold CollectExportedHeaderSet
  rw [loop_eq_walk_all cwd root_dir _ _ _ _ acc (construct_root_represents (fs dir_name))]
  · cases fs dir_name with
    | none => rfl
    | some s =>
      simp only [walk_all]
      cases h : walk cwd root_dir s acc with
      | mk b r => cases b <;> simp
  · cases fs dir_name with
    | none => simp [pending_size, walk_fuel]
    | some s => simp [pending_size, walk_fuel]

theorem walk_fst (cwd : Option Str) (root_dir : Str) (s : DirStream) :
    ∀ acc : StringSet, (walk cwd root_dir s acc).1 = walk_succeeds s := by
  induction s with
  | end_of_stream => intro acc; rfl
  | read_error => intro acc; rfl
  | entry e c n ihc ihn =>
    intro acc
    cases hs : ShouldSkipFile (filename e.Path) with
    | true => simp only [walk, walk_succeeds, hs, if_true, ihn]
    | false =>
      cases hst : e.Status with
      | none => simp [walk, walk_succeeds, hs, hst]
      | some t =>
        cases hd : (e.resolved_type == file_type.directory_file && e.opens) with
        | true =>
          simp only [walk, walk_succeeds, hs, hst, hd, if_true, Bool.false_eq_true, if_false,
            ihc]
          cases h1 : walk_succeeds c with
          | true => simp [ihn]
          | false => simp [ihc, h1]
        | false =>
          simp only [walk, walk_succeeds, hs, hst, hd, Bool.false_eq_true, if_false, ihn]

theorem walk_succeeds_ends_well (s : DirStream) (h : walk_succeeds s = true) :
    s.ends_well = true := by
  induction s with
  | end_of_stream => rfl
  | read_error => simp [walk_succeeds] at h
  | entry e c n _ ihn =>
    simp only [DirStream.ends_well]
    apply ihn
    cases hs : ShouldSkipFile (filename e.Path) with
    | true => simpa [walk_succeeds, hs] using h
    | false =>
      cases hst : e.Status with
      | none => simp [walk_succeeds, hs, hst] at h
      | some t =>
        cases hd : (e.resolved_type == file_type.directory_file && e.opens) with
        | true =>
          simp only [walk_succeeds, hs, hst, hd, if_true, Bool.false_eq_true, if_false,
            Bool.and_eq_true] at h
          exact h.2
        | false =>
          simpa only [walk_succeeds, hs, hst, hd, Bool.false_eq_true, if_false] using h

theorem walk_succeeds_next (e : directory_entry) (c n : DirStream)
    (h : walk_succeeds (DirStream.entry e c n) = true) : walk_succeeds n = true := by
  cases hs : ShouldSkipFile (filename e.Path) with
  | true => simpa [walk_succeeds, hs] using h
  | false =>
    cases hst : e.Status with
    | none => simp [walk_succeeds, hs, hst] at h
    | some t =>
      cases hd : (e.resolved_type == file_type.directory_file && e.opens) with
      | true =>
        simp only [walk_succeeds, hs, hst, hd, if_true, Bool.false_eq_true, if_false,
          Bool.and_eq_true] at h
        exact h.2
      | false =>
        simpa only [walk_succeeds, hs, hst, hd, Bool.false_eq_true, if_false] using h

theorem walk_succeeds_content (e : directory_entry) (c n : DirStream)
    (h : walk_succeeds (DirStream.entry e c n) = true)
    (hskip : ShouldSkipFile (filename e.Path) = false)
    (hdir : e.resolved_type = file_type.directory_file) (hopen : e.opens = true) :
    walk_succeeds c = true := by
  cases hst : e.Status with
  | none => simp [walk_succeeds, hskip, hst] at h
  | some t =>
    simp only [walk_succeeds, hskip, hst, hdir, hopen, beq_self_eq_true, Bool.and_self, if_true,
      Bool.false_eq_true, if_false, Bool.and_eq_true] at h
    exact h.1

theorem walk_succeeds_status (e : directory_entry) (c n : DirStream)
    (h : walk_succeeds (DirStream.entry e c n) = true)
    (hskip : ShouldSkipFile (filename e.Path) = false) : e.Status ≠ none := by
  intro hst
  simp [walk_succeeds, hskip, hst] at h

/-- The walk returns `true` exactly when no error occurs in it. -/
theorem walk_succeeds_iff (s : DirStream) : walk_succeeds s = true ↔ NoWalkError s := by
  constructor
  · intro h
    refine ⟨walk_succeeds_ends_well s h, ?_⟩
    intro d cd hu
    induction hu with
    | here e c n =>
      intro hskip
      refine ⟨walk_succeeds_status e c n h hskip, fun hdir hopen => ?_⟩
      exact walk_succeeds_ends_well c (walk_succeeds_content e c n h hskip hdir hopen)
    | later e c n _ ih => exact ih (walk_succeeds_next e c n h)
    | inside e c n hskip hdir hopen _ ih =>
      exact ih (walk_succeeds_content e c n h hskip hdir hopen)
  · induction s with
    | end_of_stream => intro _; rfl
    | read_error => intro h; exact absurd h.1 (by simp [DirStream.ends_well])
    | entry e c n ihc ihn =>
      intro h
      have hn : walk_succeeds n = true :=
        ihn ⟨h.1, fun d cd hu => h.2 d cd (Unpruned.later e c n hu)⟩
      cases hs : ShouldSkipFile (filename e.Path) with
      | true => simpa [walk_succeeds, hs] using hn
      | false =>
        have he := h.2 e c (Unpruned.here e c n) hs
        cases hst : e.Status with
        | none => exact absurd hst he.1
        | some t =>
          cases hd : (e.resolved_type == file_type.directory_file && e.opens) with
          | true =>
            have hd2 : e.resolved_type = file_type.directory_file ∧ e.opens = true := by
              simpa using hd
            have hc : walk_succeeds c = true :=
              ihc ⟨he.2 hd2.1 hd2.2,
                fun d cd hu => h.2 d cd (Unpruned.inside e c n hs hd2.1 hd2.2 hu)⟩
            simp [walk_succeeds, hs, hst, hd, hc, hn]
          | false => simp [walk_succeeds, hs, hst, hd, hn]

theorem mem_collect_entry (cwd : Option Str) (root_dir : Str) (e : directory_entry)
    (t : file_type) (acc : StringSet) (x : Str) :
    x ∈ collect_entry cwd root_dir e t acc ↔
      x ∈ acc ∨ ((t = file_type.regular_file ∨ t = file_type.symlink_file) ∧
        x = NormalizePath cwd e.Path root_dir) := by
  unfold collect_entry
  by_cases h1 : t = file_type.symlink_file
  · subst h1; simp [StringSet.mem_insert]; tauto
  · by_cases h2 : t = file_type.regular_file
    · subst h2; simp [StringSet.mem_insert]; tauto
    · simp [h1, h2]

/-- The members of the set after the walk: those before it, and the normalized
paths of the collected entries that the walk reaches. -/
theorem mem_walk (cwd : Option Str) (root_dir : Str) (s : DirStream) :
    ∀ (acc : StringSet) (x : Str), x ∈ (walk cwd root_dir s acc).2 →
      x ∈ acc ∨ ∃ e c, Unpruned s e c ∧ Accepted e ∧ x = NormalizePath cwd e.Path root_dir := by
  induction s with
  | end_of_stream => intro acc x h; exact Or.inl h
  | read_error => intro acc x h; exact Or.inl h
  | entry e c n ihc ihn =>
    intro acc x h
    have lift_n : (∃ e1 c1, Unpruned n e1 c1 ∧ Accepted e1 ∧
        x = NormalizePath cwd e1.Path root_dir) →
        ∃ e1 c1, Unpruned (DirStream.entry e c n) e1 c1 ∧ Accepted e1 ∧
          x = NormalizePath cwd e1.Path root_dir := by
      rintro ⟨e1, c1, hu, ha, hx⟩
      exact ⟨e1, c1, Unpruned.later e c n hu, ha, hx⟩
    cases hs : ShouldSkipFile (filename e.Path) with
    | true =>
      simp only [walk, hs, if_true] at h
      rcases ihn acc x h with h1 | h1
      · exact Or.inl h1
      · exact Or.inr (lift_n h1)
    | false =>
      cases hst : e.Status with
      | none =>
        simp only [walk, hs, hst, Bool.false_eq_true, if_false] at h
        exact Or.inl h
      | some t =>
        have here : x ∈ collect_entry cwd root_dir e t acc →
            x ∈ acc ∨ ∃ e1 c1, Unpruned (DirStream.entry e c n) e1 c1 ∧ Accepted e1 ∧
              x = NormalizePath cwd e1.Path root_dir := by
          intro hx
          rcases (mem_collect_entry cwd root_dir e t acc x).mp hx with h1 | ⟨ht, hx⟩
          · exact Or.inl h1
          · refine Or.inr ⟨e, c, Unpruned.here e c n, ⟨hs, ?_⟩, hx⟩
            rcases ht with ht | ht
            · exact Or.inl (by rw [hst, ht])
            · exact Or.inr (by rw [hst, ht])
        cases hd : (e.resolved_type == file_type.directory_file && e.opens) with
        | true =>
          have hd2 : e.resolved_type = file_type.directory_file ∧ e.opens = true := by
            simpa using hd
          have inner : x ∈ (walk cwd root_dir c (collect_entry cwd root_dir e t acc)).2 →
              x ∈ acc ∨ ∃ e1 c1, Unpruned (DirStream.entry e c n) e1 c1 ∧ Accepted e1 ∧
                x = NormalizePath cwd e1.Path root_dir := by
            intro hx
            rcases ihc _ x hx with h1 | ⟨e1, c1, hu, ha, hx1⟩
            · exact here h1
            · exact Or.inr ⟨e1, c1, Unpruned.inside e c n hs hd2.1 hd2.2 hu, ha, hx1⟩
          simp only [walk, hs, hst, hd, if_true, Bool.false_eq_true, if_false] at h
          cases h1 : (walk cwd root_dir c (collect_entry cwd root_dir e t acc)).1 with
          | true =>
            simp only [h1, if_true] at h
            rcases ihn _ x h with h2 | h2
            · exact inner h2
            · exact Or.inr (lift_n h2)
          | false =>
            simp only [h1, Bool.false_eq_true, if_false] at h
            exact inner h
        | false =>
          simp only [walk, hs, hst, hd, Bool.false_eq_true, if_false] at h
          rcases ihn _ x h with h2 | h2
          · exact here h2
          · exact Or.inr (lift_n h2)

/-- The walk never removes a member. -/
theorem walk_keeps (cwd : Option Str) (root_dir : Str) (s : DirStream) :
    ∀ (acc : StringSet) (x : Str), x ∈ acc → x ∈ (walk cwd root_dir s acc).2 := by
  induction s with
  | end_of_stream => intro acc x h; exact h
  | read_error => intro acc x h; exact h
  | entry e c n ihc ihn =>
    intro acc x h
    cases hs : ShouldSkipFile (filename e.Path) with
    | true => simp only [walk, hs, if_true]; exact ihn acc x h
    | false =>
      cases hst : e.Status with
      | none => simp only [walk, hs, hst, Bool.false_eq_true, if_false]; exact h
      | some t =>
        have h0 : x ∈ collect_entry cwd root_dir e t acc :=
          (mem_collect_entry cwd root_dir e t acc x).mpr (Or.inl h)
        cases hd : (e.resolved_type == file_type.directory_file && e.opens) with
        | true =>
          simp only [walk, hs, hst, hd, if_true, Bool.false_eq_true, if_false]
          cases h1 : (walk cwd root_dir c (collect_entry cwd root_dir e t acc)).1 with
          | true => simp only [if_true]; exact ihn _ x (ihc _ x h0)
          | false => simp only [Bool.false_eq_true, if_false]; exact ihc _ x h0
        | false =>
          simp only [walk, hs, hst, hd, Bool.false_eq_true, if_false]
          exact ihn _ x h0

/-- A walk that returns `true` has inserted the normalized path of every
collected entry it can reach. -/
theorem walk_complete (cwd : Option Str) (root_dir : Str) (s : DirStream)
    (e1 : directory_entry) (c1 : DirStream) (hu : Unpruned s e1 c1) (ha : Accepted e1) :
    ∀ acc : StringSet, (walk cwd root_dir s acc).1 = true →
      NormalizePath cwd e1.Path root_dir ∈ (walk cwd root_dir s acc).2 := by
  induction hu with
  | here e c n =>
    intro acc hok
    obtain ⟨hs, hty⟩ := ha
    cases hst : e.Status with
    | none => rw [hst] at hty; simp at hty
    | some t =>
      have h0 : NormalizePath cwd e.Path root_dir ∈ collect_entry cwd root_dir e t acc := by
        refine (mem_collect_entry cwd root_dir e t acc _).mpr (Or.inr ⟨?_, rfl⟩)
        rw [hst] at hty
        rcases hty with h | h
        · exact Or.inl (Option.some.inj h)
        · exact Or.inr (Option.some.inj h)
      cases hd : (e.resolved_type == file_type.directory_file && e.opens) with
      | true =>
        simp only [walk, hs, hst, hd, if_true, Bool.false_eq_true, if_false] at hok ⊢
        cases h1 : (walk cwd root_dir c (collect_entry cwd root_dir e t acc)).1 with
        | true => simp only [if_true]; exact walk_keeps _ _ _ _ _ (walk_keeps _ _ _ _ _ h0)
        | false => simp only [Bool.false_eq_true, if_false]; exact walk_keeps _ _ _ _ _ h0
      | false =>
        simp only [walk, hs, hst, hd, Bool.false_eq_true, if_false]
        exact walk_keeps _ _ _ _ _ h0
  | later e c n _ ih =>
    intro acc hok
    cases hs : ShouldSkipFile (filename e.Path) with
    | true =>
      simp only [walk, hs, if_true] at hok ⊢
      exact ih ha acc hok
    | false =>
      cases hst : e.Status with
      | none => simp [walk, hs, hst] at hok
      | some t =>
        cases hd : (e.resolved_type == file_type.directory_file && e.opens) with
        | true =>
          simp only [walk, hs, hst, hd, if_true, Bool.false_eq_true, if_false] at hok ⊢
          cases h1 : (walk cwd root_dir c (collect_entry cwd root_dir e t acc)).1 with
          | true =>
            simp only [h1, if_true] at hok ⊢
            exact ih ha _ hok
          | false =>
            simp only [h1, Bool.false_eq_true, if_false] at hok
        | false =>
          simp only [walk, hs, hst, hd, Bool.false_eq_true, if_false] at hok ⊢
          exact ih ha _ hok
  | inside e c n hskip hdir hopen _ ih =>
    intro acc hok
    cases hst : e.Status with
    | none => simp [walk, hskip, hst] at hok
    | some t =>
      simp only [walk, hskip, hst, hdir, hopen, beq_self_eq_true, Bool.and_self, if_true,
        Bool.false_eq_true, if_false] at hok ⊢
      cases h1 : (walk cwd root_dir c (collect_entry cwd root_dir e t acc)).1 with
      | true =>
        simp only [if_true]
        exact walk_keeps _ _ _ _ _ (ih ha _ h1)
      | false =>
        simp only [h1, Bool.false_eq_true, if_false] at hok

theorem collect_entry_sorted (cwd : Option Str) (root_dir : Str) (e : directory_entry)
    (t : file_type) (acc : StringSet) (h : StrictlySorted acc) :
    StrictlySorted (collect_entry cwd root_dir e t acc) := by
  unfold collect_entry
  split
  · exact h
  · exact StringSet.insert_sorted _ _ h

/-- The walk keeps the set strictly sorted. -/
theorem walk_sorted (cwd : Option Str) (root_dir : Str) (s : DirStream) :
    ∀ acc : StringSet, StrictlySorted acc → StrictlySorted (walk cwd root_dir s acc).2 := by
  induction s with
  | end_of_stream => intro acc h; exact h
  | read_error => intro acc h; exact h
  | entry e c n ihc ihn =>
    intro acc h
    cases hs : ShouldSkipFile (filename e.Path) with
    | true => simp only [walk, hs, if_true]; exact ihn acc h
    | false =>
      cases hst : e.Status with
      | none => simp only [walk, hs, hst, Bool.false_eq_true, if_false]; exact h
      | some t =>
        have h0 := collect_entry_sorted cwd root_dir e t acc h
        cases hd : (e.resolved_type == file_type.directory_file && e.opens) with
        | true =>
          simp only [walk, hs, hst, hd, if_true, Bool.false_eq_true, if_false]
          cases h1 : (walk cwd root_dir c (collect_entry cwd root_dir e t acc)).1 with
          | true => simp only [if_true]; exact ihn _ (ihc _ h0)
          | false => simp only [Bool.false_eq_true, if_false]; exact ihc _ h0
        | false =>
          simp only [walk, hs, hst, hd, Bool.false_eq_true, if_false]
          exact ihn _ h0

theorem walk_prune (cwd : Option Str) (root_dir : Str) (s : DirStream) :
    ∀ acc : StringSet, walk cwd root_dir (prune s) acc = walk cwd root_dir s acc := by
  induction s with
  | end_of_stream => intro acc; rfl
  | read_error => intro acc; rfl
  | entry e c n ihc ihn =>
    intro acc
    cases hs : ShouldSkipFile (filename e.Path) with
    | true => simp only [prune, walk, hs, if_true, ihn]
    | false =>
      cases hst : e.Status with
      | none => simp [prune, walk, hs, hst]
      | some t =>
        simp only [prune, walk, hs, hst, Bool.false_eq_true, if_false, ihc, ihn]

theorem CollectAllExportedHeaders_loop_eq (fs : FileSystem) (cwd : Option Str)
    (root_dir : Str) (dirs : List Str) :
    ∀ acc : StringSet, CollectAllExportedHeaders_loop fs cwd root_dir dirs acc =
      some (collect_all fs cwd root_dir dirs acc) := by
  induction dirs with
  | nil => intro acc; rfl
  | cons d ds ih =>
    intro acc
    simp only [CollectAllExportedHeaders_loop, collect_all, CollectExportedHeaderSet_eq]
    cases hfs : fs d with
    | none => simp only [ih]
    | some s =>
      simp only []
      cases hw : walk cwd root_dir s acc with
      | mk b r =>
        cases b with
        | true => simp [ih]
        | false => simp

theorem collect_all_sorted (fs : FileSystem) (cwd : Option Str) (root_dir : Str)
    (dirs : List Str) :
    ∀ acc collected : StringSet, StrictlySorted acc →
      collect_all fs cwd root_dir dirs acc = Outcome.returned collected →
      StrictlySorted collected := by
  induction dirs with
  | nil =>
    intro acc collected hs h
    simp only [collect_all, Outcome.returned.injEq] at h
    rw [← h]; exact hs
  | cons d ds ih =>
    intro acc collected hs h
    simp only [collect_all] at h
    cases hfs : fs d with
    | none => rw [hfs] at h; exact ih acc collected hs h
    | some s =>
      rw [hfs] at h
      simp only [] at h
      cases hw : (walk cwd root_dir s acc).1 with
      | true =>
        simp only [hw, if_true] at h
        exact ih _ collected (walk_sorted cwd root_dir s acc hs) h
      | false => simp [hw] at h

/-- When the walk of every listed directory meets no error, the loop over the
directories returns a set, and the set has what it had before and the
normalized path of every collected entry of every listed directory. -/
theorem collect_all_returns (fs : FileSystem) (cwd : Option Str) (root_dir : Str)
    (dirs : List Str) (hok : ∀ d ∈ dirs, ∀ s, fs d = some s → NoWalkError s) :
    ∀ acc : StringSet, ∃ collected : StringSet,
      collect_all fs cwd root_dir dirs acc = Outcome.returned collected ∧
      (∀ x ∈ acc, x ∈ collected) ∧
      ∀ d ∈ dirs, ∀ s, fs d = some s → ∀ e c, Unpruned s e c → Accepted e →
        NormalizePath cwd e.Path root_dir ∈ collected := by
  induction dirs with
  | nil =>
    intro acc
    exact ⟨acc, rfl, fun x h => h, fun d hd => absurd hd (List.not_mem_nil d)⟩
  | cons d ds ih =>
    intro acc
    have ih2 := ih (fun d1 hd1 => hok d1 (List.mem_cons_of_mem d hd1))
    cases hfs : fs d with
    | none =>
      obtain ⟨collected, hrun, hkeep, hall⟩ := ih2 acc
      refine ⟨collected, by simp only [collect_all, hfs, hrun], hkeep, ?_⟩
      intro d1 hd1 s hs
      rcases List.mem_cons.mp hd1 with h | h
      · rw [h, hfs] at hs; exact Option.noConfusion hs
      · exact hall d1 h s hs
    | some s0 =>
      have hw : (walk cwd root_dir s0 acc).1 = true := by
        rw [walk_fst]
        exact (walk_succeeds_iff s0).mpr (hok d (List.mem_cons_self d ds) s0 hfs)
      obtain ⟨collected, hrun, hkeep, hall⟩ := ih2 (walk cwd root_dir s0 acc).2
      refine ⟨collected, by simp only [collect_all, hfs, hw, if_true, hrun], ?_, ?_⟩
      · intro x hx
        exact hkeep x (walk_keeps cwd root_dir s0 acc x hx)
      · intro d1 hd1 s hs e c hu ha
        rcases List.mem_cons.mp hd1 with h | h
        · rw [h, hfs] at hs
          have hs0 : s0 = s := Option.some.inj hs
          subst hs0
          exact hkeep _ (walk_complete cwd root_dir s0 e c hu ha acc hw)
        · exact hall d1 h s hs e c hu ha

/-- The first listed directory whose walk fails ends the process with status 1,
whatever comes later in the list. -/
theorem collect_all_exits (fs : FileSystem) (cwd : Option Str) (root_dir : Str)
    (before : List Str) (dir : Str) (after : List Str) (s : DirStream)
    (hbefore : ∀ d ∈ before, ∀ s1, fs d = some s1 → NoWalkError s1)
    (hdir : fs dir = some s) (hfail : ¬ NoWalkError s) :
    ∀ acc : StringSet,
      collect_all fs cwd root_dir (before ++ dir :: after) acc = Outcome.exited 1 := by
  induction before with
  | nil =>
    intro acc
    have hw : (walk cwd root_dir s acc).1 = false := by
      rw [walk_fst]
      cases h : walk_succeeds s with
      | true => exact absurd ((walk_succeeds_iff s).mp h) hfail
      | false => rfl
    simp [collect_all, hdir, hw]
  | cons d ds ih =>
    intro acc
    have ih2 := ih (fun d1 hd1 => hbefore d1 (List.mem_cons_of_mem d hd1))
    cases hfs : fs d with
    | none => simp only [List.cons_append, collect_all, hfs]; exact ih2 acc
    | some s0 =>
      have hw : (walk cwd root_dir s0 acc).1 = true := by
        rw [walk_fst]
        exact (walk_succeeds_iff s0).mpr (hbefore d (List.mem_cons_self d ds) s0 hfs)
      simp only [List.cons_append, collect_all, hfs, hw, if_true]
      exact ih2 _

theorem string_less_iff_lex (a b : Str) : string_less a b = true ↔ Lexicographic a b := by
  unfold Lexicographic
  induction a generalizing b with
  | nil =>
    cases b with
    | nil => simp [string_less]
    | cons y ys => simp [string_less, List.Lex.nil]
  | cons x xs ih =>
    cases b with
    | nil => simp [string_less]
    | cons y ys =>
      simp only [string_less]
      by_cases h1 : x.toNat < y.toNat
      · simp only [h1, if_true, true_iff]
        exact List.Lex.rel h1
      · by_cases h2 : y.toNat < x.toNat
        · simp only [h1, h2, if_true, if_false, Bool.false_eq_true, false_iff]
          intro hl
          cases hl with
          | cons h => omega
          | rel h => exact h1 h
        · simp only [h1, h2, if_false, ih]
          have hxy : x = y := char_eq_of_toNat_eq x y (by omega)
          subst hxy
          constructor
          · exact List.Lex.cons
          · intro hl
            cases hl with
            | cons h => exact h
            | rel h => exact absurd h h1

theorem NormalizePath_of_failed (cwd : Option Str) (path root_dir : Str)
    (h : make_absolute cwd path = none) : NormalizePath cwd path root_dir = [] := by
  simp [NormalizePath, h]

/-- After a separator that no second separator follows, the root path is that
separator. -/
theorem root_path_slash_cons (rel : Str) (hrel : rel.head? ≠ some '/') :
    root_path ('/' :: rel) = ['/'] := by
  cases rel with
  | nil => decide
  | cons c1 r =>
    have hc : c1 ≠ '/' := by simpa using hrel
    have hc2 : ('/' == c1) = false := by
      simp only [beq_eq_false_iff_ne, ne_eq]
      exact fun h => hc h.symm
    cases r with
    | nil =>
      simp [root_path, path_begin, find_first_component, starts_with_net, const_iterator.is_end,
        has_net, is_separator]
    | cons c2 r2 =>
      simp [root_path, path_begin, find_first_component, starts_with_net, const_iterator.is_end,
        has_net, is_separator, hc2]

theorem replace_path_prefix_strip (root_dir rest : Str) (hroot : root_dir ≠ []) :
    replace_path_prefix (root_dir ++ rest) root_dir [] = (true, rest) := by
  have h1 : root_dir.isEmpty = false := by
    cases root_dir with
    | nil => exact absurd rfl hroot
    | cons a l => rfl
  have h2 : root_dir.isPrefixOf (root_dir ++ rest) = true :=
    List.isPrefixOf_iff_prefix.mpr (List.prefix_append root_dir rest)
  have h3 : (root_dir.length == ([] : Str).length) = false := by
    cases root_dir with
    | nil => exact absurd rfl hroot
    | cons a l => simp
  simp [ replace_path_prefix, h1, h2, h3]

theorem replace_path_prefix_outside (canonical root_dir : Str)
    (hout : root_dir = [] ∨ ¬ root_dir <+: canonical) :
    replace_path_prefix canonical root_dir [] = (false, canonical) := by
  rcases hout with h | h
  · subst h; simp [ replace_path_prefix]
  · have h2 : root_dir.isPrefixOf canonical = false := by
      cases hp : root_dir.isPrefixOf canonical with
      | true => exact absurd (List.isPrefixOf_iff_prefix.mp hp) h
      | false => rfl
    simp [ replace_path_prefix, h2]

theorem make_absolute_eq_none (cwd : Option Str) (path : Str) :
    make_absolute cwd path = none ↔ (cwd = none ∧ is_absolute path = false) := by
  unfold make_absolute
  cases ha : is_absolute path with
  | true => simp
  | false =>
    cases cwd with
    | none => simp
    | some d =>
      simp only [Bool.false_eq_true, if_false, reduceCtorEq, false_and, iff_false]
      split <;> [skip; split] <;> simp

/-- Without an error in the walk of any listed directory,
`CollectAllExportedHeaders` returns a set. -/
theorem CollectAllExportedHeaders_returns (fs : FileSystem) (cwd : Option Str)
    (dirs : List Str) (root_dir : Str)
    (hok : ∀ d ∈ dirs, ∀ s, fs d = some s → NoWalkError s) :
    ∃ collected : StringSet,
      CollectAllExportedHeaders fs cwd dirs root_dir = some (Outcome.returned collected) := by
  obtain ⟨collected, hrun, _, _⟩ := collect_all_returns fs cwd root_dir dirs hok []
  exact ⟨collected, by unfold CollectAllExportedHeaders; rw [CollectAllExportedHeaders_loop_eq, hrun]⟩

/-- A failing read, or a failing `stat` on a visited entry that is not skipped,
in a listed directory that opens ends the process with status 1 at the first
such directory, whatever the directories later in the list hold. -/
theorem CollectAllExportedHeaders_exits (fs : FileSystem) (cwd : Option Str)
    (root_dir : Str) (before : List Str) (dir : Str) (after : List Str) (s : DirStream)
    (hbefore : ∀ d ∈ before, ∀ s1, fs d = some s1 → NoWalkError s1)
    (hdir : fs dir = some s) (hfail : ¬ NoWalkError s) :
    CollectAllExportedHeaders fs cwd (before ++ dir :: after) root_dir =
      some (Outcome.exited 1) := by
  unfold CollectAllExportedHeaders
  rw [CollectAllExportedHeaders_loop_eq,
    collect_all_exits fs cwd root_dir before dir after s hbefore hdir hfail]

/-! ## `remove_dots` is idempotent -/

theorem upto_separator_append (c r : Str) (hc : ∀ x ∈ c, is_separator x = false) :
    upto_separator (c ++ '/' :: r) = c ∧ from_separator (c ++ '/' :: r) = '/' :: r := by
  induction c with
  | nil => simp [upto_separator, from_separator, is_separator]
  | cons a l ih =>
    have ha : is_separator a = false := hc a (List.mem_cons_self a l)
    have ih2 := ih (fun x hx => hc x (List.mem_cons_of_mem a hx))
    simp only [upto_separator, from_separator] at ih2 ⊢
    simp [ha, ih2.1, ih2.2]

theorem upto_separator_self (c : Str) (hc : ∀ x ∈ c, is_separator x = false) :
    upto_separator c = c ∧ from_separator c = [] := by
  induction c with
  | nil => simp [upto_separator, from_separator]
  | cons a l ih =>
    have ha : is_separator a = false := hc a (List.mem_cons_self a l)
    have ih2 := ih (fun x hx => hc x (List.mem_cons_of_mem a hx))
    simp only [upto_separator, from_separator] at ih2 ⊢
    simp [ha, ih2.1, ih2.2]

theorem upto_append_from (s : Str) : upto_separator s ++ from_separator s = s :=
  List.takeWhile_append_dropWhile _ s

theorem upto_separator_no_separator (s : Str) : ∀ x ∈ upto_separator s, is_separator x = false := by
  intro x hx
  have := List.mem_takeWhile_imp hx
  simpa using this

theorem from_separator_shape (s : Str) :
    from_separator s = [] ∨ ∃ r, from_separator s = '/' :: r := by
  induction s with
  | nil => left; rfl
  | cons a l ih =>
    by_cases ha : a = '/'
    · right; subst ha; exact ⟨l, by simp [from_separator, is_separator]⟩
    · have : is_separator a = false := by simp [is_separator, ha]
      simp only [from_separator] at ih ⊢
      simpa [this] using ih

theorem remove_dots_loop_nil (absolute : Bool) (fuel : Nat) (st : List Str) (nc : Bool) :
    remove_dots_loop true absolute fuel [] st nc = (st, nc) := by
  cases fuel <;> simp [remove_dots_loop]

theorem remove_dots_loop_changed (absolute : Bool) (fuel : Nat) :
    ∀ (rem : Str) (st : List Str),
      (remove_dots_loop true absolute fuel rem st true).2 = true := by
  induction fuel with
  | zero => intro rem st; rfl
  | succ fuel ih =>
    intro rem st
    simp only [remove_dots_loop]
    split
    · rfl
    · split
      · exact ih _ _
      · split
        · split
          · split
            · exact ih _ _
            · split <;> exact ih _ _
          · split <;> exact ih _ _
        · simp only [Bool.true_or]
          split <;> exact ih _ _

theorem remove_dots_loop_clean (absolute : Bool) (fuel : Nat) :
    ∀ (rem : Str) (st : List Str) (nc : Bool), CleanStack absolute st →
      CleanStack absolute (remove_dots_loop true absolute fuel rem st nc).1 := by
  induction fuel with
  | zero => intro rem st nc h; exact h
  | succ fuel ih =>
    intro rem st nc h
    simp only [remove_dots_loop]
    split
    · exact h
    · rename_i hrem
      split
      · exact ih _ _ _ h
      · rename_i h1
        split
        · rename_i h2
          have hdd : upto_separator rem = ['.', '.'] := by simpa using h2
          split
          · rename_i back popped
            have hpop : CleanStack absolute popped := by
              cases h with
              | cons h0 _ => exact h0
            split
            · exact ih _ _ _ hpop
            · rename_i hback
              have hb : back = ['.', '.'] := by simpa using hback
              split
              · rename_i habs
                have ha : absolute = false := by simpa using habs
                refine ih _ _ _ (CleanStack.cons h (Or.inr ⟨hdd, ha, Or.inr ?_⟩))
                simp [hb]
              · exact ih _ _ _ h
          · split
            · rename_i habs
              have ha : absolute = false := by simpa using habs
              exact ih _ _ _ (CleanStack.cons CleanStack.nil (Or.inr ⟨hdd, ha, Or.inl rfl⟩))
            · exact ih _ _ _ CleanStack.nil
        · rename_i h2
          have hn : NormalName (upto_separator rem) := by
            simp only [Bool.or_eq_true, List.isEmpty_iff, beq_iff_eq, not_or] at h1
            refine ⟨h1.1, upto_separator_no_separator rem, h1.2, ?_⟩
            simpa using h2
          exact ih _ _ _ (CleanStack.cons h (Or.inl hn))

theorem clean_from_of_stack (absolute : Bool) (st : List Str) (h : CleanStack absolute st) :
    ∀ cs : List Str, CleanFrom absolute st cs → CleanFrom absolute [] (st.reverse ++ cs) := by
  induction h with
  | nil => intro cs h; simpa using h
  | cons h0 hc ih =>
    intro cs h
    have := ih _ (CleanFrom.cons hc h)
    simpa using this

theorem pushable_no_separator (absolute : Bool) (st : List Str) (c : Str)
    (h : Pushable absolute st c) : c ≠ [] ∧ ∀ x ∈ c, is_separator x = false := by
  rcases h with h | ⟨h, _, _⟩
  · exact ⟨h.1, h.2.1⟩
  · subst h
    refine ⟨by simp, ?_⟩
    intro x hx
    have : x = '.' := by simpa using hx
    subst this
    decide

/-- One round of the loop on a component that is pushed. -/
theorem remove_dots_loop_push (absolute : Bool) (fuel : Nat) (c rest : Str) (st : List Str)
    (nc : Bool) (hc : Pushable absolute st c)
    (hup : upto_separator (c ++ rest) = c) (hfrom : from_separator (c ++ rest) = rest) :
    ∃ nc1, (rest = ['/'] → nc1 = true) ∧
      remove_dots_loop true absolute (fuel + 1) (c ++ rest) st nc =
        remove_dots_loop true absolute fuel (rest.drop 1) (c :: st) nc1 := by
  have hne : c ≠ [] := (pushable_no_separator absolute st c hc).1
  have hrem : (c ++ rest).isEmpty = false := by
    cases c with
    | nil => exact absurd rfl hne
    | cons a l => rfl
  rcases hc with hn | ⟨hdd, ha, hst⟩
  · have h1 : (c.isEmpty || c == ['.']) = false := by
      have e1 : c.isEmpty = false := by
        cases c with
        | nil => exact absurd rfl hne
        | cons a l => rfl
      have e2 : (c == ['.']) = false := by simpa using hn.2.2.1
      simp [e1, e2]
    have h2 : (c == ['.', '.']) = false := by simpa using hn.2.2.2
    refine ⟨if rest.isEmpty then nc else nc || (rest.drop 1).isEmpty, ?_, ?_⟩
    · intro hr; subst hr; simp
    · simp only [remove_dots_loop, hrem, hup, hfrom, h1, h2, Bool.false_eq_true, if_false,
        Bool.and_false, Bool.true_and]
  · subst hdd
    subst ha
    have h1 : ((['.', '.'] : Str).isEmpty || (['.', '.'] : Str) == ['.']) = false := by decide
    have h2 : ((['.', '.'] : Str) == ['.', '.']) = true := by decide
    rcases hst with hst | hst
    · subst hst
      refine ⟨true, fun _ => rfl, ?_⟩
      simp only [remove_dots_loop, hrem, hup, hfrom, h1, h2, Bool.false_eq_true, if_false,
        Bool.and_self, if_true, Bool.not_false]
    · cases st with
      | nil => simp at hst
      | cons back popped =>
        have hb : back = ['.', '.'] := by simpa using hst
        subst hb
        have h3 : ((['.', '.'] : Str) != ['.', '.']) = false := by decide
        refine ⟨true, fun _ => rfl, ?_⟩
        simp only [remove_dots_loop, hrem, hup, hfrom, h1, h2, h3, Bool.false_eq_true, if_false,
          Bool.and_self, if_true, Bool.not_false]

theorem join_components_cons (c : Str) (cs : List Str) (h : cs ≠ []) :
    join_components (c :: cs) = c ++ '/' :: join_components cs := by
  cases cs with
  | nil => exact absurd rfl h
  | cons d ds => rfl

/-- The loop, run on clean components joined by separators, pushes them all. -/
theorem remove_dots_loop_join (absolute : Bool) (cs : List Str) :
    ∀ (st : List Str) (nc : Bool) (fuel : Nat), CleanFrom absolute st cs →
      (join_components cs).length ≤ fuel →
      ∃ nc1, remove_dots_loop true absolute fuel (join_components cs) st nc =
        (cs.reverse ++ st, nc1) := by
  induction cs with
  | nil =>
    intro st nc fuel _ _
    exact ⟨nc, by simp [join_components, remove_dots_loop_nil]⟩
  | cons c cs ih =>
    intro st nc fuel h hfuel
    cases h with
    | cons hc hrest =>
      have hsep := pushable_no_separator absolute st c hc
      cases cs with
      | nil =>
        have hlen : 0 < c.length := List.length_pos.mpr hsep.1
        simp only [join_components] at hfuel ⊢
        obtain ⟨fuel1, rfl⟩ : ∃ k, fuel = k + 1 := ⟨fuel - 1, by omega⟩
        have hs := upto_separator_self c hsep.2
        obtain ⟨nc1, _, hstep⟩ := remove_dots_loop_push absolute fuel1 c [] st nc hc
          (by rw [List.append_nil]; exact hs.1) (by rw [List.append_nil]; exact hs.2)
        rw [List.append_nil] at hstep
        exact ⟨nc1, by rw [hstep]; simp [remove_dots_loop_nil]⟩
      | cons d ds =>
        rw [join_components_cons c (d :: ds) (by simp)] at hfuel ⊢
        obtain ⟨fuel1, rfl⟩ : ∃ k, fuel = k + 1 := ⟨fuel - 1, by
          simp only [List.length_append, List.length_cons] at hfuel; omega⟩
        have hs := upto_separator_append c (join_components (d :: ds)) hsep.2
        obtain ⟨nc1, _, hstep⟩ := remove_dots_loop_push absolute fuel1 c
          ('/' :: join_components (d :: ds)) st nc hc hs.1 hs.2
        obtain ⟨nc2, hrun⟩ := ih (c :: st) nc1 fuel1 hrest (by
          simp only [List.length_append, List.length_cons] at hfuel; omega)
        refine ⟨nc2, ?_⟩
        rw [hstep]
        simp only [List.drop_succ_cons, List.drop_zero]
        rw [hrun]
        simp

theorem join_components_ne_nil (cs : List Str) (h : join_components cs ≠ []) : cs ≠ [] := by
  intro hcs
  subst hcs
  exact h rfl

/-- When the loop ends with `needs_change` clear, it has pushed every component
and the string it read is the pushed components joined by separators. -/
theorem remove_dots_loop_unchanged (absolute : Bool) (fuel : Nat) :
    ∀ (rem : Str) (st : List Str) (nc : Bool) (st1 : List Str), rem.length ≤ fuel →
      remove_dots_loop true absolute fuel rem st nc = (st1, false) →
      ∃ cs : List Str, st1 = cs.reverse ++ st ∧ rem = join_components cs := by
  induction fuel with
  | zero =>
    intro rem st nc st1 hlen h
    have hrem : rem = [] := List.length_eq_zero.mp (Nat.le_zero.mp hlen)
    subst hrem
    simp only [remove_dots_loop, Prod.mk.injEq] at h
    exact ⟨[], by simp [h.1], rfl⟩
  | succ fuel ih =>
    intro rem st nc st1 hlen h
    have contra : ∀ (r : Str) (s : List Str),
        remove_dots_loop true absolute fuel r s true = (st1, false) → False := by
      intro r s hr
      have := remove_dots_loop_changed absolute fuel r s
      rw [hr] at this
      exact Bool.noConfusion this
    simp only [remove_dots_loop] at h
    split at h
    · simp only [Prod.mk.injEq] at h
      rename_i hrem
      have hrem2 : rem = [] := List.isEmpty_iff.mp hrem
      exact ⟨[], by simp [h.1], hrem2⟩
    · split at h
      · exact absurd h (fun h => contra _ _ h)
      · rename_i h1
        split at h
        · split at h
          · split at h
            · exact absurd h (fun h => contra _ _ h)
            · split at h <;> exact absurd h (fun h => contra _ _ h)
          · split at h <;> exact absurd h (fun h => contra _ _ h)
        · simp only [Bool.or_eq_true, List.isEmpty_iff, beq_iff_eq, not_or] at h1
          have hsplit := upto_append_from rem
          have hclen : 0 < (upto_separator rem).length := List.length_pos.mpr h1.1
          have hlen2 : (from_separator rem).length ≤ fuel := by
            have := congrArg List.length hsplit
            simp only [List.length_append] at this
            omega
          rcases from_separator_shape rem with hf | ⟨r, hf⟩
          · rw [hf] at h
            simp only [List.drop_nil, List.isEmpty_nil, if_true, remove_dots_loop_nil,
              Prod.mk.injEq] at h
            refine ⟨[upto_separator rem], by simp [h.1], ?_⟩
            rw [hf, List.append_nil] at hsplit
            simp [join_components, hsplit]
          · rw [hf] at h hlen2
            simp only [List.drop_succ_cons, List.drop_zero, List.isEmpty_cons,
              Bool.false_eq_true, if_false] at h
            cases hr : r with
            | nil =>
              rw [hr] at h
              simp only [List.isEmpty_nil, Bool.or_true] at h
              exact absurd h (fun h => contra _ _ h)
            | cons a l =>
              obtain ⟨cs, hst, hjoin⟩ := ih r _ _ st1
                (by simp only [List.length_cons] at hlen2; omega) h
              have hcs : cs ≠ [] := join_components_ne_nil cs (by rw [← hjoin, hr]; simp)
              refine ⟨upto_separator rem :: cs, by simp [hst], ?_⟩
              rw [join_components_cons _ cs hcs, ← hjoin, ← hf, hsplit]

theorem root_path_nil : root_path [] = [] := by decide

theorem root_path_of_not_separator (c : Char) (r : Str) (hc : c ≠ '/') :
    root_path (c :: r) = [] := by
  have hs : is_separator c = false := by simp [is_separator, hc]
  have hnet : starts_with_net (c :: r) = false := by
    cases r with
    | nil => rfl
    | cons c1 r1 =>
      cases r1 with
      | nil => rfl
      | cons c2 r2 => simp [starts_with_net, hs]
  have hup : upto_separator (c :: r) = c :: upto_separator r := by
    simp [upto_separator, hs]
  have hnet2 : has_net (c :: upto_separator r) = false := by
    cases upto_separator r with
    | nil => rfl
    | cons c1 r1 =>
      cases r1 with
      | nil => rfl
      | cons c2 r2 => simp [has_net, hs]
  simp [root_path, path_begin, find_first_component, hnet, hs, hup, hnet2,
    const_iterator.is_end]

theorem root_path_slash (rel : Str) (hnet : starts_with_net ('/' :: rel) = false) :
    root_path ('/' :: rel) = ['/'] := by
  simp [root_path, path_begin, find_first_component, hnet, is_separator, has_net,
    const_iterator.is_end]

theorem root_path_net (name rest : Str) (hne : name ≠ [])
    (hname : ∀ x ∈ name, is_separator x = false) (hrest : rest = [] ∨ ∃ r, rest = '/' :: r) :
    root_path ('/' :: '/' :: name ++ rest) = '/' :: '/' :: name ++ rest.take 1 := by
  obtain ⟨c, l, rfl⟩ : ∃ c l, name = c :: l := by
    cases name with
    | nil => exact absurd rfl hne
    | cons c l => exact ⟨c, l, rfl⟩
  have hc : is_separator c = false := hname c (List.mem_cons_self c l)
  have hcne : ¬ c = '/' := by simpa [is_separator] using hc
  have hnet : starts_with_net ('/' :: '/' :: (c :: l) ++ rest) = true := by
    simp [starts_with_net, is_separator, hcne]
  have hnet2 : starts_with_net ('/' :: '/' :: c :: l) = true := by
    simp [starts_with_net, is_separator, hcne]
  rcases hrest with hr | ⟨r, hr⟩
  · subst hr
    have hup := (upto_separator_self (c :: l) hname).1
    simp only [List.append_nil] at hnet ⊢
    simp [root_path, path_begin, find_first_component, hnet, hup, has_net, is_separator,
      const_iterator.is_end, const_iterator.increment]
  · subst hr
    have hup := (upto_separator_append (c :: l) r hname).1
    have hdrop : List.drop (l.length + 1 + 2) ('/' :: '/' :: (c :: l) ++ '/' :: r) = '/' :: r := by
      have : ('/' :: '/' :: (c :: l) ++ '/' :: r) = ('/' :: '/' :: c :: l) ++ ('/' :: r) := by
        simp
      rw [this]
      have hl : l.length + 1 + 2 = ('/' :: '/' :: c :: l).length := by simp
      rw [hl, List.drop_left]
    have htake : List.take (l.length + 1 + 2 + 1) ('/' :: '/' :: (c :: l) ++ '/' :: r) =
        '/' :: '/' :: (c :: l) ++ ['/'] := by
      have : ('/' :: '/' :: (c :: l) ++ '/' :: r) = ('/' :: '/' :: (c :: l) ++ ['/']) ++ r := by
        simp
      rw [this]
      have hl : l.length + 1 + 2 + 1 = ('/' :: '/' :: (c :: l) ++ ['/']).length := by simp
      rw [hl, List.take_left]
    simp only [List.cons_append] at hnet hup hdrop htake ⊢
    simp [root_path, path_begin, find_first_component, hnet, hnet2, hup, has_net, is_separator,
      const_iterator.is_end, const_iterator.increment, hdrop, htake]

/-- The four shapes of a path and its root path: empty; a relative path; a
path that starts with the root directory; a path that starts with a `//net`
name, alone or followed by its root directory. -/
theorem root_path_cases (p : Str) :
    (p = [] ∧ root_path p = []) ∨
    (∃ c r, p = c :: r ∧ c ≠ '/' ∧ root_path p = []) ∨
    (∃ rel, p = '/' :: rel ∧ starts_with_net p = false ∧ root_path p = ['/']) ∨
    (∃ name rest, p = '/' :: '/' :: name ++ rest ∧ name ≠ [] ∧
      (∀ x ∈ name, is_separator x = false) ∧ (rest = [] ∨ ∃ r, rest = '/' :: r) ∧
      root_path p = '/' :: '/' :: name ++ rest.take 1) := by
  cases p with
  | nil => exact Or.inl ⟨rfl, root_path_nil⟩
  | cons c r =>
    by_cases hc : c = '/'
    · subst hc
      rcases Bool.eq_false_or_eq_true (starts_with_net ('/' :: r)) with hnet | hnet
      · right; right; right
        cases r with
        | nil => simp [starts_with_net] at hnet
        | cons c1 r1 =>
          cases r1 with
          | nil => simp [starts_with_net] at hnet
          | cons c2 r2 =>
            simp only [starts_with_net, is_separator, beq_self_eq_true, Bool.true_and,
              Bool.and_eq_true, beq_iff_eq, Bool.not_eq_true', beq_eq_false_iff_ne, ne_eq] at hnet
            obtain ⟨h1, h2⟩ := hnet
            subst h1
            have hsplit := upto_append_from (c2 :: r2)
            have hc2 : is_separator c2 = false := by simp [is_separator, h2]
            have hne : upto_separator (c2 :: r2) ≠ [] := by
              simp [upto_separator, hc2]
            refine ⟨upto_separator (c2 :: r2), from_separator (c2 :: r2), ?_, hne,
              upto_separator_no_separator _, from_separator_shape _, ?_⟩
            · rw [List.cons_append, List.cons_append, hsplit]
            · have := root_path_net (upto_separator (c2 :: r2)) (from_separator (c2 :: r2)) hne
                (upto_separator_no_separator _) (from_separator_shape _)
              rw [List.cons_append, List.cons_append, hsplit] at this
              rw [this]
      · exact Or.inr (Or.inr (Or.inl ⟨r, rfl, hnet, root_path_slash r hnet⟩))
    · exact Or.inr (Or.inl ⟨c, r, rfl, hc, root_path_of_not_separator c r hc⟩)

/-- The root path is a prefix of the path. -/
theorem root_path_append_drop (p : Str) : root_path p ++ p.drop (root_path p).length = p := by
  rcases root_path_cases p with ⟨hp, h⟩ | ⟨c, r, hp, _, h⟩ | ⟨rel, hp, _, h⟩ |
      ⟨name, rest, hp, _, _, hrest, h⟩
  · rw [h]; simp
  · rw [h]; simp
  · rw [h, hp]; simp
  · rw [h, hp]
    rcases hrest with hr | ⟨r, hr⟩
    · subst hr; simp
    · subst hr
      have : ('/' :: '/' :: name ++ '/' :: r) = ('/' :: '/' :: name ++ ['/']) ++ r := by simp
      rw [this]
      simp only [List.take_succ_cons, List.take_zero]
      rw [List.drop_left]

theorem clean_from_head (absolute : Bool) (st : List Str) (cs : List Str)
    (h : CleanFrom absolute st cs) : (join_components cs).head? ≠ some '/' := by
  cases h with
  | nil => simp [join_components]
  | cons hc hrest =>
    rename_i c cs1
    have hsep := pushable_no_separator absolute st c hc
    obtain ⟨a, l, rfl⟩ : ∃ a l, c = a :: l := by
      cases c with
      | nil => exact absurd rfl hsep.1
      | cons a l => exact ⟨a, l, rfl⟩
    have ha : is_separator a = false := hsep.2 a (List.mem_cons_self a l)
    have hane : ¬ a = '/' := by simpa [is_separator] using ha
    cases cs1 with
    | nil => simpa [join_components] using hane
    | cons d ds => simpa [join_components] using hane

/-- The root path of a path rebuilt from the root path of `p` and clean
components is the root path of `p`. -/
theorem root_path_rebuild (p : Str) (cs : List Str)
    (hclean : CleanFrom (!(root_path p).isEmpty) [] cs)
    (hrem : p.drop (root_path p).length = [] → cs = []) :
    root_path (root_path p ++ join_components cs) = root_path p := by
  have hhead := clean_from_head _ _ cs hclean
  rcases root_path_cases p with ⟨_, h⟩ | ⟨c, r, _, _, h⟩ | ⟨rel, _, _, h⟩ |
      ⟨name, rest, hp, hne, hname, hrest, h⟩
  · rw [h, List.nil_append]
    cases hj : join_components cs with
    | nil => exact root_path_nil
    | cons a l =>
      rw [hj] at hhead
      exact root_path_of_not_separator a l (by simpa using hhead)
  · rw [h, List.nil_append]
    cases hj : join_components cs with
    | nil => exact root_path_nil
    | cons a l =>
      rw [hj] at hhead
      exact root_path_of_not_separator a l (by simpa using hhead)
  · rw [h]
    exact root_path_slash_cons _ hhead
  · rw [h]
    rcases hrest with hr | ⟨r, hr⟩
    · subst hr
      have hcs : cs = [] := by
        apply hrem
        rw [h, hp]
        simp
      subst hcs
      simp only [List.take_nil, List.append_nil, join_components]
      have := root_path_net name [] hne hname (Or.inl rfl)
      simpa using this
    · subst hr
      have := root_path_net name ('/' :: join_components cs) hne hname
        (Or.inr ⟨_, rfl⟩)
      simpa using this

/-- What `remove_dots` returns is the root path followed by clean components
joined by separators. -/
theorem remove_dots_eq_rebuild (p : Str) :
    ∃ cs : List Str, CleanFrom (!(root_path p).isEmpty) [] cs ∧
      (p.drop (root_path p).length = [] → cs = []) ∧
      remove_dots p true = root_path p ++ join_components cs := by
  have hclean := remove_dots_loop_clean (!(root_path p).isEmpty)
    (p.drop (root_path p).length).length (p.drop (root_path p).length) [] false CleanStack.nil
  refine ⟨(remove_dots_loop true (!(root_path p).isEmpty) (p.drop (root_path p).length).length
    (p.drop (root_path p).length) [] false).1.reverse, ?_, ?_, ?_⟩
  · have := clean_from_of_stack _ _ hclean [] (CleanFrom.nil _)
    simpa using this
  · intro h
    rw [h]
    simp [remove_dots_loop]
  · unfold remove_dots
    simp only []
    cases hr : remove_dots_loop true (!(root_path p).isEmpty) (p.drop (root_path p).length).length
        (p.drop (root_path p).length) [] false with
    | mk st nc =>
      cases nc with
      | true => simp
      | false =>
        obtain ⟨cs, hst, hjoin⟩ := remove_dots_loop_unchanged _ _ _ _ _ st (le_refl _) hr
        simp only [Bool.not_false, if_true]
        rw [hst]
        simp only [List.append_nil, List.reverse_reverse]
        rw [← hjoin]
        exact (root_path_append_drop p).symm

/-- Removing dots from a path without dots changes nothing. -/
theorem remove_dots_idempotent (p : Str) :
    remove_dots (remove_dots p true) true = remove_dots p true := by
  obtain ⟨cs, hclean, hrem, hout⟩ := remove_dots_eq_rebuild p
  have hroot := root_path_rebuild p cs hclean hrem
  rw [hout]
  unfold remove_dots
  simp only [hroot, List.drop_left]
  obtain ⟨nc1, hrun⟩ := remove_dots_loop_join (!(root_path p).isEmpty) cs [] false
    (join_components cs).length hclean (le_refl _)
  rw [hrun]
  cases nc1 <;> simp

theorem is_absolute_nil : is_absolute [] = false := by decide

theorem is_absolute_of_not_separator (c : Char) (r : Str) (hc : c ≠ '/') :
    is_absolute (c :: r) = false := by
  have hs : is_separator c = false := by simp [is_separator, hc]
  have hnet : starts_with_net (c :: r) = false := by
    cases r with
    | nil => rfl
    | cons c1 r1 =>
      cases r1 with
      | nil => rfl
      | cons c2 r2 => simp [starts_with_net, hs]
  have hup : upto_separator (c :: r) = c :: upto_separator r := by
    simp [upto_separator, hs]
  have hnet2 : has_net (c :: upto_separator r) = false := by
    cases upto_separator r with
    | nil => rfl
    | cons c1 r1 =>
      cases r1 with
      | nil => rfl
      | cons c2 r2 => simp [has_net, hs]
  simp [is_absolute, has_root_directory, root_directory, path_begin, find_first_component, hnet,
    hs, hup, hnet2, const_iterator.is_end]

theorem is_absolute_slash (rel : Str) (hnet : starts_with_net ('/' :: rel) = false) :
    is_absolute ('/' :: rel) = true := by
  simp [is_absolute, has_root_directory, root_directory, path_begin, find_first_component, hnet,
    is_separator, has_net, const_iterator.is_end]

theorem is_absolute_net (name rest : Str) (hne : name ≠ [])
    (hname : ∀ x ∈ name, is_separator x = false) (hrest : rest = [] ∨ ∃ r, rest = '/' :: r) :
    is_absolute ('/' :: '/' :: name ++ rest) = !rest.isEmpty := by
  obtain ⟨c, l, rfl⟩ : ∃ c l, name = c :: l := by
    cases name with
    | nil => exact absurd rfl hne
    | cons c l => exact ⟨c, l, rfl⟩
  have hc : is_separator c = false := hname c (List.mem_cons_self c l)
  have hcne : ¬ c = '/' := by simpa [is_separator] using hc
  have hnet : starts_with_net ('/' :: '/' :: (c :: l) ++ rest) = true := by
    simp [starts_with_net, is_separator, hcne]
  have hnet2 : starts_with_net ('/' :: '/' :: c :: l) = true := by
    simp [starts_with_net, is_separator, hcne]
  rcases hrest with hr | ⟨r, hr⟩
  · subst hr
    have hup := (upto_separator_self (c :: l) hname).1
    simp only [List.append_nil] at hnet ⊢
    simp [is_absolute, has_root_directory, root_directory, path_begin, find_first_component,
      hnet, hup, has_net, is_separator, const_iterator.is_end, const_iterator.increment]
  · subst hr
    have hup := (upto_separator_append (c :: l) r hname).1
    have hdrop : List.drop (l.length + 1 + 2) ('/' :: '/' :: (c :: l) ++ '/' :: r) = '/' :: r := by
      have : ('/' :: '/' :: (c :: l) ++ '/' :: r) = ('/' :: '/' :: c :: l) ++ ('/' :: r) := by
        simp
      rw [this]
      have hl : l.length + 1 + 2 = ('/' :: '/' :: c :: l).length := by simp
      rw [hl, List.drop_left]
    simp only [List.cons_append] at hnet hup hdrop ⊢
    simp [is_absolute, has_root_directory, root_directory, path_begin, find_first_component,
      hnet, hnet2, hup, has_net, is_separator, const_iterator.is_end, const_iterator.increment,
      hdrop]

/-- An absolute path starts with the root directory, or with a `//net` name and
the root directory. -/
theorem is_absolute_cases (p : Str) (h : is_absolute p = true) :
    (∃ rel, p = '/' :: rel ∧ starts_with_net p = false ∧ root_path p = ['/']) ∨
    (∃ name r, p = '/' :: '/' :: name ++ '/' :: r ∧ name ≠ [] ∧
      (∀ x ∈ name, is_separator x = false) ∧ root_path p = '/' :: '/' :: name ++ ['/']) := by
  rcases root_path_cases p with ⟨hp, _⟩ | ⟨c, r, hp, hc, _⟩ | ⟨rel, hp, hnet, hr⟩ |
      ⟨name, rest, hp, hne, hname, hrest, hr⟩
  · rw [hp, is_absolute_nil] at h; exact Bool.noConfusion h
  · rw [hp, is_absolute_of_not_separator c r hc] at h; exact Bool.noConfusion h
  · exact Or.inl ⟨rel, hp, hnet, hr⟩
  · right
    rw [hp, is_absolute_net name rest hne hname hrest] at h
    rcases hrest with hrest | ⟨r, hrest⟩
    · subst hrest; simp at h
    · subst hrest
      exact ⟨name, r, hp, hne, hname, by simpa using hr⟩

theorem is_absolute_append_slash (p : Str) (h : is_absolute p = true) :
    is_absolute (p ++ ['/']) = true := by
  rcases is_absolute_cases p h with ⟨rel, hp, hnet, _⟩ | ⟨name, r, hp, hne, hname, _⟩
  · subst hp
    apply is_absolute_slash
    cases rel with
    | nil => rfl
    | cons c1 r1 =>
      cases r1 with
      | nil => simp [starts_with_net, is_separator]
      | cons c2 r2 => simpa [starts_with_net] using hnet
  · subst hp
    have := is_absolute_net name ('/' :: (r ++ ['/'])) hne hname (Or.inr ⟨_, rfl⟩)
    simpa using this

/-- The root path of `p`, followed by a tail that does not begin with a
separator, is the root path of the whole. -/
theorem root_path_append_tail (p tail : Str) (hhead : tail.head? ≠ some '/')
    (hrem : p.drop (root_path p).length = [] → tail = []) :
    root_path (root_path p ++ tail) = root_path p := by
  rcases root_path_cases p with ⟨_, h⟩ | ⟨c, r, _, _, h⟩ | ⟨rel, _, _, h⟩ |
      ⟨name, rest, hp, hne, hname, hrest, h⟩
  · rw [h, List.nil_append]
    cases tail with
    | nil => exact root_path_nil
    | cons a l => exact root_path_of_not_separator a l (by simpa using hhead)
  · rw [h, List.nil_append]
    cases tail with
    | nil => exact root_path_nil
    | cons a l => exact root_path_of_not_separator a l (by simpa using hhead)
  · rw [h]
    exact root_path_slash_cons _ hhead
  · rw [h]
    rcases hrest with hr | ⟨r, hr⟩
    · subst hr
      have hcs : tail = [] := by
        apply hrem
        rw [h, hp]
        simp
      subst hcs
      simp only [List.take_nil, List.append_nil]
      have := root_path_net name [] hne hname (Or.inl rfl)
      simpa using this
    · subst hr
      have := root_path_net name ('/' :: tail) hne hname (Or.inr ⟨_, rfl⟩)
      simpa using this

/-- The loop, run on clean components joined by separators and followed by a
separator, pushes them all and asks for a rewrite. -/
theorem remove_dots_loop_join_trailing (absolute : Bool) (cs : List Str) :
    ∀ (st : List Str) (nc : Bool) (fuel : Nat), CleanFrom absolute st cs →
      (join_components cs).length + 1 ≤ fuel →
      remove_dots_loop true absolute fuel (join_components cs ++ ['/']) st nc =
        (cs.reverse ++ st, true) := by
  induction cs with
  | nil =>
    intro st nc fuel _ hfuel
    obtain ⟨fuel1, rfl⟩ : ∃ k, fuel = k + 1 := ⟨fuel - 1, by omega⟩
    simp [join_components, remove_dots_loop, upto_separator, from_separator, is_separator,
      remove_dots_loop_nil]
  | cons c cs ih =>
    intro st nc fuel h hfuel
    cases h with
    | cons hc hrest =>
      have hsep := pushable_no_separator absolute st c hc
      obtain ⟨fuel1, rfl⟩ : ∃ k, fuel = k + 1 := ⟨fuel - 1, by omega⟩
      cases cs with
      | nil =>
        simp only [join_components] at hfuel ⊢
        have hs := upto_separator_append c [] hsep.2
        obtain ⟨nc1, hnc, hstep⟩ := remove_dots_loop_push absolute fuel1 c ['/'] st nc hc
          hs.1 hs.2
        rw [hstep, hnc rfl]
        simp [remove_dots_loop_nil]
      | cons d ds =>
        rw [join_components_cons c (d :: ds) (by simp)] at hfuel ⊢
        have hs := upto_separator_append c (join_components (d :: ds) ++ ['/']) hsep.2
        obtain ⟨nc1, _, hstep⟩ := remove_dots_loop_push absolute fuel1 c
          ('/' :: (join_components (d :: ds) ++ ['/'])) st nc hc hs.1 hs.2
        have hrun := ih (c :: st) nc1 fuel1 hrest (by
          simp only [List.length_append, List.length_cons] at hfuel; omega)
        have hshape : c ++ '/' :: join_components (d :: ds) ++ ['/'] =
            c ++ '/' :: (join_components (d :: ds) ++ ['/']) := by simp
        rw [hshape, hstep]
        simp only [List.drop_succ_cons, List.drop_zero]
        rw [hrun]
        simp

/-- A canonical absolute path followed by a separator has the path itself as
canonical form. -/
theorem remove_dots_trailing (a : Str) (h : is_absolute (remove_dots a true) = true) :
    remove_dots (remove_dots a true ++ ['/']) true = remove_dots a true := by
  obtain ⟨cs, hclean, hrem, hout⟩ := remove_dots_eq_rebuild a
  have hroot := root_path_rebuild a cs hclean hrem
  cases cs with
  | nil =>
    simp only [join_components, List.append_nil] at hout hroot
    rw [hout] at h ⊢
    rcases is_absolute_cases (root_path a) h with ⟨rel, hp, _, hr⟩ | ⟨name, r, hp, hne, hname, hr⟩
    · rw [hroot] at hr
      rw [hr]
      decide
    · rw [hroot] at hr
      rw [hr]
      have hrp := root_path_net name ['/', '/'] hne hname (Or.inr ⟨_, rfl⟩)
      have hshape : '/' :: '/' :: name ++ ['/'] ++ ['/'] = '/' :: '/' :: name ++ ['/', '/'] := by
        simp
      have hrun := remove_dots_loop_join_trailing
        (!('/' :: '/' :: name ++ List.take 1 ['/', '/']).isEmpty) [] [] false 1
        (CleanFrom.nil _) (by simp [join_components])
      simp only [join_components, List.nil_append] at hrun
      have hdrop : List.drop ('/' :: '/' :: name ++ List.take 1 ['/', '/']).length
          ('/' :: '/' :: name ++ ['/', '/']) = ['/'] := by
        have : ('/' :: '/' :: name ++ ['/', '/']) = ('/' :: '/' :: name ++ ['/']) ++ ['/'] := by
          simp
        rw [this]
        have hl : ('/' :: '/' :: name ++ List.take 1 ['/', '/']) = '/' :: '/' :: name ++ ['/'] := by
          simp
        rw [hl, List.drop_left]
      rw [hshape]
      unfold remove_dots
      simp only [hrp, hdrop, List.length_singleton, hrun]
      simp [join_components]
  | cons c cs1 =>
    have hsep : c ≠ [] := by
      cases hclean with
      | cons hc _ => exact (pushable_no_separator _ _ c hc).1
    have hjne : join_components (c :: cs1) ≠ [] := by
      cases cs1 with
      | nil => simpa [join_components] using hsep
      | cons d ds => simp [join_components]
    have hhead : (join_components (c :: cs1) ++ ['/']).head? ≠ some '/' := by
      have := clean_from_head _ _ _ hclean
      cases hj : join_components (c :: cs1) with
      | nil => exact absurd hj hjne
      | cons x l => rw [hj] at this; simpa using this
    have hroot2 := root_path_append_tail a (join_components (c :: cs1) ++ ['/']) hhead
      (fun h0 => absurd (hrem h0) (by simp))
    rw [hout]
    have hshape : root_path a ++ join_components (c :: cs1) ++ ['/'] =
        root_path a ++ (join_components (c :: cs1) ++ ['/']) := by simp
    rw [hshape]
    have hrun := remove_dots_loop_join_trailing (!(root_path a).isEmpty) (c :: cs1) [] false
      (join_components (c :: cs1) ++ ['/']).length hclean (by simp)
    unfold remove_dots
    simp only [hroot2, List.drop_left, hrun]
    simp

theorem make_absolute_of_absolute (cwd : Option Str) (p : Str) (h : is_absolute p = true) :
    make_absolute cwd p = some p := by
  simp [make_absolute, h]

theorem relative_path_nil : relative_path [] = [] := by decide

/-- `NormalizePath` on a path whose canonical absolute form is the root, a
separator and a remainder that does not begin with a separator. -/
theorem NormalizePath_at_boundary (cwd : Option Str) (path root_dir rel absolute : Str)
    (habs : make_absolute cwd path = some absolute)
    (hcanon : remove_dots absolute true = root_dir ++ '/' :: rel)
    (hroot : root_dir ≠ []) (hrel : rel.head? ≠ some '/') :
    NormalizePath cwd path root_dir = rel := by
  simp only [NormalizePath, habs, hcanon, replace_path_prefix_strip root_dir _ hroot, if_true,
    relative_path, root_path_slash_cons rel hrel]
  rfl

/-- `NormalizePath` on a path whose canonical absolute form is the root. -/
theorem NormalizePath_at_root (cwd : Option Str) (path root_dir absolute : Str)
    (habs : make_absolute cwd path = some absolute)
    (hcanon : remove_dots absolute true = root_dir) (hroot : root_dir ≠ []) :
    NormalizePath cwd path root_dir = [] := by
  have h := replace_path_prefix_strip root_dir [] hroot
  rw [List.append_nil] at h
  simp only [NormalizePath, habs, hcanon, h, if_true, relative_path_nil]

theorem no_double_separator_tail (a : Char) (s : Str) (h : no_double_separator (a :: s) = true) :
    no_double_separator s = true := by
  cases s with
  | nil => rfl
  | cons b r =>
    simp only [no_double_separator, Bool.and_eq_true] at h
    exact h.2

theorem no_double_separator_drop (k : Nat) :
    ∀ s : Str, no_double_separator s = true → no_double_separator (s.drop k) = true := by
  induction k with
  | zero => intro s h; simpa using h
  | succ k ih =>
    intro s h
    cases s with
    | nil => simpa using h
    | cons a l =>
      simp only [List.drop_succ_cons]
      exact ih l (no_double_separator_tail a l h)

theorem no_double_separator_cons (a : Char) (s : Str)
    (ha : is_separator a = false ∨ s.head? ≠ some '/') (h : no_double_separator s = true) :
    no_double_separator (a :: s) = true := by
  cases s with
  | nil => rfl
  | cons b r =>
    simp only [no_double_separator, Bool.and_eq_true, Bool.not_eq_true', Bool.and_eq_false_iff]
    refine ⟨?_, h⟩
    rcases ha with ha | ha
    · exact Or.inl ha
    · right
      have : ¬ b = '/' := by simpa using ha
      simpa [is_separator] using this

theorem no_double_separator_append (x t : Str) (hx : ∀ ch ∈ x, is_separator ch = false)
    (h : no_double_separator t = true) : no_double_separator (x ++ t) = true := by
  induction x with
  | nil => simpa using h
  | cons a l ih =>
    have ih2 := ih (fun ch hch => hx ch (List.mem_cons_of_mem a hch))
    exact no_double_separator_cons a (l ++ t) (Or.inl (hx a (List.mem_cons_self a l))) ih2

theorem head_append_of_ne_nil (x t : Str) (hx : x ≠ []) : (x ++ t).head? = x.head? := by
  cases x with
  | nil => exact absurd rfl hx
  | cons a l => rfl

theorem no_double_separator_join (absolute : Bool) (cs : List Str) :
    ∀ st : List Str, CleanFrom absolute st cs →
      no_double_separator (join_components cs) = true := by
  induction cs with
  | nil => intro st _; rfl
  | cons c cs ih =>
    intro st h
    cases h with
    | cons hc hrest =>
      have hsep := pushable_no_separator absolute st c hc
      cases cs with
      | nil =>
        simp only [join_components]
        have := no_double_separator_append c [] hsep.2 rfl
        simpa using this
      | cons d ds =>
        rw [join_components_cons c (d :: ds) (by simp)]
        apply no_double_separator_append c _ hsep.2
        exact no_double_separator_cons '/' _ (Or.inr (clean_from_head _ _ _ hrest))
          (ih (c :: st) hrest)

/-- After its first character, what `remove_dots` returns has no two separators
in a row. -/
theorem remove_dots_no_double_separator (a : Str) :
    no_double_separator ((remove_dots a true).drop 1) = true := by
  obtain ⟨cs, hclean, hrem, hout⟩ := remove_dots_eq_rebuild a
  have hj := no_double_separator_join _ cs [] hclean
  have hhead := clean_from_head _ _ cs hclean
  rw [hout]
  rcases root_path_cases a with ⟨_, h⟩ | ⟨c, r, _, _, h⟩ | ⟨rel, _, _, h⟩ |
      ⟨name, rest, hp, hne, hname, hrest, h⟩
  · rw [h, List.nil_append]; exact no_double_separator_drop 1 _ hj
  · rw [h, List.nil_append]; exact no_double_separator_drop 1 _ hj
  · rw [h]; simpa using hj
  · rw [h]
    have hnamehead : name.head? ≠ some '/' := by
      cases name with
      | nil => exact absurd rfl hne
      | cons x l =>
        have := hname x (List.mem_cons_self x l)
        have hx : ¬ x = '/' := by simpa [is_separator] using this
        simpa using hx
    have htail : no_double_separator (List.take 1 rest ++ join_components cs) = true := by
      rcases hrest with hr | ⟨r, hr⟩
      · subst hr
        have hcs : cs = [] := by
          apply hrem
          rw [h, hp]
          simp
        subst hcs
        rfl
      · subst hr
        exact no_double_separator_cons '/' _ (Or.inr hhead) hj
    have hshape : ('/' :: '/' :: name ++ List.take 1 rest ++ join_components cs).drop 1 =
        '/' :: (name ++ (List.take 1 rest ++ join_components cs)) := by simp
    rw [hshape]
    refine no_double_separator_cons '/' _ (Or.inr ?_) (no_double_separator_append name _ hname htail)
    rw [head_append_of_ne_nil name _ hne]
    exact hnamehead

/-- In a canonical form, what follows a non-empty prefix and a separator does
not begin with a separator. -/
theorem canonical_remainder_relative (a root_dir rel : Str)
    (hcanon : remove_dots a true = root_dir ++ '/' :: rel) (hroot : root_dir ≠ []) :
    rel.head? ≠ some '/' := by
  have h := no_double_separator_drop (root_dir.length - 1) _ (remove_dots_no_double_separator a)
  have hlen : 0 < root_dir.length := List.length_pos.mpr hroot
  rw [List.drop_drop, hcanon] at h
  have hk : 1 + (root_dir.length - 1) = root_dir.length := by omega
  rw [hk, List.drop_left] at h
  intro hrel
  cases rel with
  | nil => simp at hrel
  | cons x l =>
    have hx : x = '/' := by simpa using hrel
    subst hx
    simp [no_double_separator, is_separator] at h

theorem relative_path_of_relative (rel : Str) (hrel : rel.head? ≠ some '/') :
    relative_path rel = rel := by
  cases rel with
  | nil => exact relative_path_nil
  | cons c r =>
    have hc : c ≠ '/' := by simpa using hrel
    simp [relative_path, root_path_of_not_separator c r hc]

/-- `NormalizePath` on a path whose canonical absolute form is the root, which
ends where a component ends, and a remainder that does not begin with a
separator. -/
theorem NormalizePath_at_prefix (cwd : Option Str) (path root_dir rel absolute : Str)
    (habs : make_absolute cwd path = some absolute)
    (hcanon : remove_dots absolute true = root_dir ++ rel)
    (hroot : root_dir ≠ []) (hrel : rel.head? ≠ some '/') :
    NormalizePath cwd path root_dir = rel := by
  simp only [NormalizePath, habs, hcanon, replace_path_prefix_strip root_dir _ hroot, if_true,
    relative_path_of_relative rel hrel]

/-! ## The claims -/

/-- C1: when no enumeration or stat error occurs in the walk of the starting
directory, `CollectExportedHeaderSet` returns `true` and the set holds, besides
what it held before, exactly the strings `NormalizePath(p, root_dir)` of the
entries `p` beneath the starting directory whose type, as `status()` reports
it, is regular file or symbolic link, whose base name is not skipped and none
of whose ancestor directories strictly below the starting directory is
skipped. -/
theorem CollectExportedHeaderSet_collects_exactly (fs : FileSystem) (cwd : Option Str)
    (dir_name : Str) (exported_headers : StringSet) (root_dir : Str) (start : DirStream)
    (hopen : fs dir_name = some start) (hok : NoWalkError start) :
    ∃ collected : StringSet,
      CollectExportedHeaderSet fs cwd dir_name exported_headers root_dir =
        some (true, collected) ∧
      ∀ x : Str, x ∈ collected ↔
        (x ∈ exported_headers ∨
          ∃ e c, Unpruned start e c ∧ Accepted e ∧ x = NormalizePath cwd e.Path root_dir) := by
  have hw : (walk cwd root_dir start exported_headers).1 = true := by
    rw [walk_fst]; exact (walk_succeeds_iff start).mpr hok
  refine ⟨(walk cwd root_dir start exported_headers).2, ?_, ?_⟩
  · rw [CollectExportedHeaderSet_eq, hopen, ← hw]
  · intro x
    constructor
    · exact mem_walk cwd root_dir start exported_headers x
    · rintro (h | ⟨e, c, hu, ha, hx⟩)
      · exact walk_keeps cwd root_dir start exported_headers x h
      · rw [hx]; exact walk_complete cwd root_dir start e c hu ha exported_headers hw

/-- C1, at the scenario of the spec: roots = [`/project/include`], root_dir =
`/project`, with `foo.h`, `foo.cpp`, `.foo.h.swp` and `detail/bar.h`, gives
`include/detail/bar.h` and `include/foo.h`. -/
theorem CollectExportedHeaderSet_collects_exactly_scenario :
    scenario_fs "/project/include".toList = some scenario_include ∧
    NoWalkError scenario_include ∧
    CollectAllExportedHeaders scenario_fs none ["/project/include".toList] "/project".toList =
      some (Outcome.returned ["include/detail/bar.h".toList, "include/foo.h".toList]) ∧
    ∃ collected : StringSet,
      CollectExportedHeaderSet scenario_fs none "/project/include".toList [] "/project".toList =
        some (true, collected) ∧
      ∀ x : Str, x ∈ collected ↔
        (x ∈ ([] : StringSet) ∨
          ∃ e c, Unpruned scenario_include e c ∧ Accepted e ∧
            x = NormalizePath none e.Path "/project".toList) :=
  ⟨by decide, (walk_succeeds_iff scenario_include).mp (by decide), by decide,
    CollectExportedHeaderSet_collects_exactly scenario_fs none "/project/include".toList []
      "/project".toList scenario_include (by decide)
      ((walk_succeeds_iff scenario_include).mp (by decide))⟩

/-- C2: `ShouldSkipFile name` is true if and only if `name` is empty, or starts
with `.`, or ends with one of `.swp`, `.swo`, `#`, `.cpp`, `.cc`, `.c`.  It is
true for `x.cpp`, `x.cc`, `x.c`, `.hidden.h`, `backup.h.swp` and `lock#` and
false for `public.h`, and of a directory with those seven regular files only
`public.h` is collected. -/
theorem ShouldSkipFile_iff :
    (∀ name : Str, ShouldSkipFile name = true ↔
      (name = [] ∨ ".".toList <+: name ∨ ".swp".toList <:+ name ∨ ".swo".toList <:+ name ∨
        "#".toList <:+ name ∨ ".cpp".toList <:+ name ∨ ".cc".toList <:+ name ∨
        ".c".toList <:+ name)) ∧
    ShouldSkipFile "x.cpp".toList = true ∧ ShouldSkipFile "x.cc".toList = true ∧
    ShouldSkipFile "x.c".toList = true ∧ ShouldSkipFile ".hidden.h".toList = true ∧
    ShouldSkipFile "backup.h.swp".toList = true ∧ ShouldSkipFile "lock#".toList = true ∧
    ShouldSkipFile "public.h".toList = false ∧
    CollectAllExportedHeaders seven_files_fs none ["/d".toList] "/d".toList =
      some (Outcome.returned ["public.h".toList]) := by
  refine ⟨?_, by decide, by decide, by decide, by decide, by decide, by decide, by decide,
    by decide⟩
  intro name
  simp only [ShouldSkipFile, Bool.or_eq_true, List.isEmpty_iff, List.isPrefixOf_iff_prefix,
    List.isSuffixOf_iff_suffix, or_assoc]

/-- C3: the walk never descends into an entry whose base name is skipped: two
file systems that differ only in what lies beneath skipped entries, and in what
`stat` and the directory stream say about skipped entries, give the same flag
and the same set. -/
theorem skipped_entries_are_pruned (fs fs2 : FileSystem) (cwd : Option Str) (dir_name : Str)
    (exported_headers : StringSet) (root_dir : Str)
    (h : (fs dir_name).map prune = (fs2 dir_name).map prune) :
    CollectExportedHeaderSet fs cwd dir_name exported_headers root_dir =
      CollectExportedHeaderSet fs2 cwd dir_name exported_headers root_dir := by
  rw [CollectExportedHeaderSet_eq, CollectExportedHeaderSet_eq]
  cases h1 : fs dir_name with
  | none =>
    cases h2 : fs2 dir_name with
    | none => rfl
    | some s2 => rw [h1, h2] at h; simp at h
  | some s1 =>
    cases h2 : fs2 dir_name with
    | none => rw [h1, h2] at h; simp at h
    | some s2 =>
      rw [h1, h2] at h
      simp only [Option.map_some', Option.some.injEq] at h
      simp only []
      rw [← walk_prune cwd root_dir s1, ← walk_prune cwd root_dir s2, h]

/-- C3, at a directory `.git` with the sentinel `public.h`, an entry on which
`stat` fails and a failing read beneath it: the result is that of the tree with
an empty `.git`, the set `include/foo.h`. -/
theorem skipped_entries_are_pruned_sentinel :
    (Option.map prune (some include_with_git) =
      Option.map prune (some include_with_empty_git)) ∧
    CollectExportedHeaderSet (fun _ => some include_with_git) none
        "/project/include".toList [] "/project".toList =
      CollectExportedHeaderSet (fun _ => some include_with_empty_git) none
        "/project/include".toList [] "/project".toList ∧
    CollectAllExportedHeaders (fun _ => some include_with_git) none
        ["/project/include".toList] "/project".toList =
      some (Outcome.returned ["include/foo.h".toList]) :=
  ⟨by decide,
    skipped_entries_are_pruned (fun _ => some include_with_git)
      (fun _ => some include_with_empty_git) none "/project/include".toList []
      "/project".toList (by decide),
    by decide⟩

/-- C4: when the canonical absolute form of `path` is `root_dir`, a separator
and a remainder `rel` (or, for a `root_dir` that itself ends with a separator,
such as `/`, is `root_dir` and a relative remainder `rel`), for a `root_dir`
that is not empty (every absolute one), `NormalizePath` returns `rel`, and
what it returns does not begin with a separator. -/
theorem NormalizePath_strips_root (cwd : Option Str) (path root_dir rel absolute : Str)
    (habs : make_absolute cwd path = some absolute)
    (hroot : root_dir ≠ [])
    (hcanon : remove_dots absolute true = root_dir ++ '/' :: rel ∨
      (root_dir.getLast? = some '/' ∧ rel.head? ≠ some '/' ∧
        remove_dots absolute true = root_dir ++ rel)) :
    NormalizePath cwd path root_dir = rel ∧
      (NormalizePath cwd path root_dir).head? ≠ some '/' := by
  rcases hcanon with hc | ⟨_, hrel, hc⟩
  · have hrel := canonical_remainder_relative absolute root_dir rel hc hroot
    have h := NormalizePath_at_boundary cwd path root_dir rel absolute habs hc hroot hrel
    exact ⟨h, by rw [h]; exact hrel⟩
  · have h := NormalizePath_at_prefix cwd path root_dir rel absolute habs hc hroot hrel
    exact ⟨h, by rw [h]; exact hrel⟩

/-- C4, at the absolute form `/project/sub/file.h` with root `/project`, for a
relative path resolved against the working directory `/project/sub` and for the
absolute path itself: the result is `sub/file.h`; and with root `/`, the result
for `/sub/file.h` is `sub/file.h`. -/
theorem NormalizePath_strips_root_sub_file :
    make_absolute (some "/project/sub".toList) "./x/../file.h".toList =
      some "/project/sub/./x/../file.h".toList ∧
    remove_dots "/project/sub/./x/../file.h".toList true =
      "/project".toList ++ '/' :: "sub/file.h".toList ∧
    "/project".toList ≠ [] ∧
    NormalizePath none "/project/sub/file.h".toList "/project".toList = "sub/file.h".toList ∧
    NormalizePath none "/sub/file.h".toList "/".toList = "sub/file.h".toList ∧
    (NormalizePath (some "/project/sub".toList) "./x/../file.h".toList "/project".toList =
        "sub/file.h".toList ∧
      (NormalizePath (some "/project/sub".toList) "./x/../file.h".toList
        "/project".toList).head? ≠ some '/') :=
  ⟨by decide, by decide, by decide, by decide, by decide,
    NormalizePath_strips_root (some "/project/sub".toList) "./x/../file.h".toList
      "/project".toList "sub/file.h".toList "/project/sub/./x/../file.h".toList
      (by decide) (by decide) (Or.inl (by decide))⟩

/-- C5 as stated fails: with root `/a/b` the path `/a/bc/file.h` is canonical
and absolute, is not the root and is not the root followed by a separator and a
remainder, so it lies outside the root; yet `NormalizePath` returns `c/file.h`
and not the canonical absolute path. -/
theorem NormalizePath_sibling_is_stripped :
    make_absolute none "/a/bc/file.h".toList = some "/a/bc/file.h".toList ∧
    remove_dots "/a/bc/file.h".toList true = "/a/bc/file.h".toList ∧
    "/a/bc/file.h".toList ≠ "/a/b".toList ∧
    (∀ rel : Str, "/a/bc/file.h".toList ≠ "/a/b".toList ++ '/' :: rel) ∧
    NormalizePath none "/a/bc/file.h".toList "/a/b".toList = "c/file.h".toList ∧
    NormalizePath none "/a/bc/file.h".toList "/a/b".toList ≠ "/a/bc/file.h".toList := by
  refine ⟨by decide, by decide, by decide, ?_, by decide, by decide⟩
  intro rel h
  have h4 := congrArg (fun l : Str => l.get? 4) h
  simp at h4

/-- C5, amended: when `root_dir` is empty or the canonical absolute form of
`path` does not begin with the string `root_dir`, `NormalizePath` returns the
canonical absolute form unchanged. -/
theorem NormalizePath_outside_root (cwd : Option Str) (path root_dir absolute : Str)
    (habs : make_absolute cwd path = some absolute)
    (hout : root_dir = [] ∨ ¬ root_dir <+: remove_dots absolute true) :
    NormalizePath cwd path root_dir = remove_dots absolute true := by
  simp [NormalizePath, habs, replace_path_prefix_outside _ root_dir hout]

/-- C5, amended, at root `/a/b` and path `/a/c/file.h`: the result is
`/a/c/file.h`. -/
theorem NormalizePath_outside_root_a_c :
    make_absolute none "/a/c/file.h".toList = some "/a/c/file.h".toList ∧
    ¬ "/a/b".toList <+: remove_dots "/a/c/file.h".toList true ∧
    remove_dots "/a/c/file.h".toList true = "/a/c/file.h".toList ∧
    NormalizePath none "/a/c/file.h".toList "/a/b".toList =
      remove_dots "/a/c/file.h".toList true :=
  ⟨by decide, by decide, by decide,
    NormalizePath_outside_root none "/a/c/file.h".toList "/a/b".toList "/a/c/file.h".toList
      (by decide) (Or.inr (by decide))⟩

/-- C6 as stated fails: `/a/b` is absolute and canonical, and the path
`/a/b./x` begins with that string, so its normalized result `./x` has the root
stripped and is relative; joined back onto the root and normalized again it
gives `x`. -/
theorem NormalizePath_not_idempotent :
    is_absolute "/a/b".toList = true ∧ remove_dots "/a/b".toList true = "/a/b".toList ∧
    ( replace_path_prefix (remove_dots "/a/b./x".toList true) "/a/b".toList []).1 = true ∧
    NormalizePath none "/a/b./x".toList "/a/b".toList = "./x".toList ∧
    is_absolute "./x".toList = false ∧
    NormalizePath none ("/a/b".toList ++ '/' :: "./x".toList) "/a/b".toList = "x".toList ∧
    NormalizePath none
        ("/a/b".toList ++ '/' :: NormalizePath none "/a/b./x".toList "/a/b".toList)
        "/a/b".toList ≠
      NormalizePath none "/a/b./x".toList "/a/b".toList := by
  decide

/-- C6, amended: for an absolute `root_dir` and a path whose canonical absolute
form is absolute and is `root_dir` itself or `root_dir`, a separator and a
remainder, the normalized result `n` joined back onto the root and normalized
again against the same root is `n`. -/
theorem NormalizePath_idempotent_at_boundary (cwd : Option Str)
    (path root_dir absolute : Str)
    (habs : make_absolute cwd path = some absolute)
    (hroot : is_absolute root_dir = true)
    (hcanon : is_absolute (remove_dots absolute true) = true)
    (hboundary : remove_dots absolute true = root_dir ∨
      ∃ rel : Str, remove_dots absolute true = root_dir ++ '/' :: rel) :
    NormalizePath cwd (root_dir ++ '/' :: NormalizePath cwd path root_dir) root_dir =
      NormalizePath cwd path root_dir := by
  have hne : root_dir ≠ [] := by
    intro h0
    rw [h0, is_absolute_nil] at hroot
    exact Bool.noConfusion hroot
  rcases hboundary with hb | ⟨rel, hb⟩
  · rw [NormalizePath_at_root cwd path root_dir absolute habs hb hne]
    have h1 : is_absolute (root_dir ++ ['/']) = true := is_absolute_append_slash root_dir hroot
    have h2 : remove_dots (root_dir ++ ['/']) true = root_dir := by
      have := remove_dots_trailing absolute hcanon
      rw [hb] at this
      exact this
    exact NormalizePath_at_root cwd _ root_dir _ (make_absolute_of_absolute cwd _ h1) h2 hne
  · have hrel := canonical_remainder_relative absolute root_dir rel hb hne
    rw [NormalizePath_at_boundary cwd path root_dir rel absolute habs hb hne hrel]
    have h1 : is_absolute (root_dir ++ '/' :: rel) = true := by rw [← hb]; exact hcanon
    have h2 : remove_dots (root_dir ++ '/' :: rel) true = root_dir ++ '/' :: rel := by
      have := remove_dots_idempotent absolute
      rw [hb] at this
      exact this
    exact NormalizePath_at_boundary cwd _ root_dir rel _ (make_absolute_of_absolute cwd _ h1) h2
      hne hrel

/-- C6, amended, at root `/a/b`: the path `x/../y/`, resolved against the
working directory `/a/b/sub`, normalizes to `sub/y`, and `/a/b/sub/y`
normalizes to `sub/y` again. -/
theorem NormalizePath_idempotent_at_boundary_sub_y :
    make_absolute (some "/a/b/sub".toList) "x/../y/".toList = some "/a/b/sub/x/../y/".toList ∧
    is_absolute "/a/b".toList = true ∧
    is_absolute (remove_dots "/a/b/sub/x/../y/".toList true) = true ∧
    remove_dots "/a/b/sub/x/../y/".toList true = "/a/b".toList ++ '/' :: "sub/y".toList ∧
    NormalizePath (some "/a/b/sub".toList) "x/../y/".toList "/a/b".toList = "sub/y".toList ∧
    NormalizePath (some "/a/b/sub".toList)
        ("/a/b".toList ++ '/' ::
          NormalizePath (some "/a/b/sub".toList) "x/../y/".toList "/a/b".toList)
        "/a/b".toList =
      NormalizePath (some "/a/b/sub".toList) "x/../y/".toList "/a/b".toList :=
  ⟨by decide, by decide, by decide, by decide, by decide,
    NormalizePath_idempotent_at_boundary (some "/a/b/sub".toList) "x/../y/".toList
      "/a/b".toList "/a/b/sub/x/../y/".toList (by decide) (by decide) (by decide)
      (Or.inr ⟨"sub/y".toList, by decide⟩)⟩

/-- C7, at the failing input: a directory that cannot be opened is not
reported.  When no listed directory opens, `CollectAllExportedHeaders` returns
the empty set for every list of directories; and a directory `locked` beneath
`/project/include` that cannot be opened is passed over, the walk returns
`true` and the set is returned. -/
theorem unopenable_directory_is_not_reported :
    (∀ (cwd : Option Str) (dirs : List Str) (root_dir : Str),
      CollectAllExportedHeaders nothing_opens cwd dirs root_dir = some (Outcome.returned [])) ∧
    CollectExportedHeaderSet nothing_opens none "/project/missing".toList []
      "/project".toList = some (true, []) ∧
    CollectAllExportedHeaders (fun _ => some include_with_locked) none
        ["/project/include".toList] "/project".toList =
      some (Outcome.returned ["include/foo.h".toList]) := by
  refine ⟨?_, by decide, by decide⟩
  intro cwd dirs root_dir
  unfold CollectAllExportedHeaders
  rw [CollectAllExportedHeaders_loop_eq]
  induction dirs with
  | nil => rfl
  | cons d ds ih => simpa [collect_all, nothing_opens] using ih

/-- C8 as stated fails: for the path `foo.h`, which is not absolute, with a
working directory that cannot be determined (where `GetCwd` exits with status
1), the call of `NormalizePath` returns the empty string and does not exit. -/
theorem NormalizePath_returns_without_cwd :
    is_absolute "foo.h".toList = false ∧
    GetCwd none = Outcome.exited 1 ∧
    NormalizePath_call none "foo.h".toList "/project".toList = Outcome.returned [] ∧
    ∀ status : Nat,
      NormalizePath_call none "foo.h".toList "/project".toList ≠ Outcome.exited status := by
  refine ⟨by decide, by decide, by decide, ?_⟩
  intro status h
  have h2 : NormalizePath_call none "foo.h".toList "/project".toList = Outcome.returned [] := by
    decide
  rw [h2] at h
  exact Outcome.noConfusion h

/-- C8, amended: a call of `NormalizePath` always returns and never exits; for
a path that is not absolute, with a working directory that cannot be
determined, it returns the empty string; absolute resolution fails in that
case and in no other; `GetCwd` is what exits, with status 1, when the working
directory cannot be determined. -/
theorem NormalizePath_never_exits :
    (∀ (cwd : Option Str) (path root_dir : Str),
      ∃ result : Str, NormalizePath_call cwd path root_dir = Outcome.returned result) ∧
    (∀ path root_dir : Str, is_absolute path = false →
      NormalizePath_call none path root_dir = Outcome.returned []) ∧
    (∀ (cwd : Option Str) (path : Str),
      make_absolute cwd path = none ↔ (cwd = none ∧ is_absolute path = false)) ∧
    GetCwd none = Outcome.exited 1 := by
  refine ⟨fun cwd path root_dir => ⟨_, rfl⟩, ?_, make_absolute_eq_none, rfl⟩
  intro path root_dir h
  have hm : make_absolute none path = none := (make_absolute_eq_none none path).mpr ⟨rfl, h⟩
  simp [NormalizePath_call, NormalizePath_of_failed none path root_dir hm]

/-- C8, amended, at the path `include/foo.h` without a working directory. -/
theorem NormalizePath_never_exits_relative :
    is_absolute "include/foo.h".toList = false ∧
    NormalizePath_call none "include/foo.h".toList "/project".toList = Outcome.returned [] :=
  ⟨by decide,
    NormalizePath_never_exits.2.1 "include/foo.h".toList "/project".toList (by decide)⟩

/-- C9: a collection that `CollectAllExportedHeaders` returns is strictly
increasing in the order of the set, which is the lexicographic order by the
values of the characters, and has no duplicates. -/
theorem CollectAllExportedHeaders_sorted (fs : FileSystem) (cwd : Option Str)
    (exported_header_dirs : List Str) (root_dir : Str) (collected : StringSet)
    (h : CollectAllExportedHeaders fs cwd exported_header_dirs root_dir =
      some (Outcome.returned collected)) :
    StrictlySorted collected ∧ List.Pairwise Lexicographic collected ∧ collected.Nodup := by
  unfold CollectAllExportedHeaders at h
  rw [CollectAllExportedHeaders_loop_eq] at h
  have hs : StrictlySorted collected :=
    collect_all_sorted fs cwd root_dir exported_header_dirs [] collected List.Pairwise.nil
      (Option.some.inj h)
  exact ⟨hs, List.Pairwise.imp (fun hab => (string_less_iff_lex _ _).mp hab) hs,
    StrictlySorted.nodup collected hs⟩

/-- C9, at a list that names `/project/include` twice and a directory whose
entries normalize to the same strings: each string is there once, in order. -/
theorem CollectAllExportedHeaders_sorted_two_routes :
    CollectAllExportedHeaders two_routes_fs none
        ["/project/src".toList, "/project/include".toList, "/project/include".toList]
        "/project".toList =
      some (Outcome.returned ["include/detail/bar.h".toList, "include/foo.h".toList]) ∧
    (StrictlySorted ["include/detail/bar.h".toList, "include/foo.h".toList] ∧
      List.Pairwise Lexicographic ["include/detail/bar.h".toList, "include/foo.h".toList] ∧
      ["include/detail/bar.h".toList, "include/foo.h".toList].Nodup) :=
  ⟨by decide,
    CollectAllExportedHeaders_sorted two_routes_fs none
      ["/project/src".toList, "/project/include".toList, "/project/include".toList]
      "/project".toList _ (by decide)⟩

/-- C10: when absolute resolution fails for the path of an accepted entry,
`NormalizePath` gives the empty string and `CollectExportedHeaderSet` inserts
it, goes on and returns `true`; when no listed directory meets an error,
`CollectAllExportedHeaders` returns a set that has the empty string. -/
theorem empty_string_is_collected (fs : FileSystem) (cwd : Option Str)
    (exported_header_dirs : List Str) (dir_name : Str) (exported_headers : StringSet)
    (root_dir : Str) (start : DirStream) (e : directory_entry) (c : DirStream)
    (hall : ∀ d ∈ exported_header_dirs, ∀ s, fs d = some s → NoWalkError s)
    (hlisted : dir_name ∈ exported_header_dirs) (hopen : fs dir_name = some start)
    (hbeneath : Unpruned start e c) (haccepted : Accepted e)
    (hfail : make_absolute cwd e.Path = none) :
    NormalizePath cwd e.Path root_dir = [] ∧
    (∃ collected : StringSet,
      CollectExportedHeaderSet fs cwd dir_name exported_headers root_dir =
        some (true, collected) ∧ [] ∈ collected) ∧
    ∃ collected : StringSet,
      CollectAllExportedHeaders fs cwd exported_header_dirs root_dir =
        some (Outcome.returned collected) ∧ [] ∈ collected := by
  have hn := NormalizePath_of_failed cwd e.Path root_dir hfail
  have hok : NoWalkError start := hall dir_name hlisted start hopen
  have hw : (walk cwd root_dir start exported_headers).1 = true := by
    rw [walk_fst]; exact (walk_succeeds_iff start).mpr hok
  refine ⟨hn, ⟨(walk cwd root_dir start exported_headers).2, ?_, ?_⟩, ?_⟩
  · rw [CollectExportedHeaderSet_eq, hopen, ← hw]
  · rw [← hn]
    exact walk_complete cwd root_dir start e c hbeneath haccepted exported_headers hw
  · obtain ⟨collected, hrun, _, hmem⟩ :=
      collect_all_returns fs cwd root_dir exported_header_dirs hall []
    refine ⟨collected, ?_, ?_⟩
    · unfold CollectAllExportedHeaders
      rw [CollectAllExportedHeaders_loop_eq, hrun]
    · rw [← hn]
      exact hmem dir_name hlisted start hopen e c hbeneath haccepted

/-- C10, at the directory `include` opened by a relative name while the working
directory cannot be determined: the set returned is the one string `""`. -/
theorem empty_string_is_collected_relative :
    make_absolute none "include/foo.h".toList = none ∧
    CollectAllExportedHeaders relative_fs none ["include".toList] "/project".toList =
      some (Outcome.returned [[]]) ∧
    (NormalizePath none "include/foo.h".toList "/project".toList = [] ∧
      (∃ collected : StringSet,
        CollectExportedHeaderSet relative_fs none "include".toList [] "/project".toList =
          some (true, collected) ∧ [] ∈ collected) ∧
      ∃ collected : StringSet,
        CollectAllExportedHeaders relative_fs none ["include".toList] "/project".toList =
          some (Outcome.returned collected) ∧ [] ∈ collected) :=
  ⟨by decide, by decide,
    empty_string_is_collected relative_fs none ["include".toList] "include".toList []
      "/project".toList relative_include (regular_entry "include/foo.h")
      DirStream.end_of_stream
      (by
        intro d hd s hs
        have hd1 : d = "include".toList := by simpa using hd
        subst hd1
        have hs1 : s = relative_include := by
          have : relative_fs "include".toList = some relative_include := by decide
          rw [this] at hs
          exact (Option.some.inj hs).symm
        subst hs1
        exact (walk_succeeds_iff relative_include).mp (by decide))
      (by simp) (by decide)
      (Unpruned.here _ _ _) ⟨by decide, Or.inl rfl⟩ (by decide)⟩

end utils
end header_checker
